import Mathlib

/-!
# Verification of the pydice dice-notation library

Shallow embedding of `src/pydice/dice.py` (a Python 2/3 dice-rolling
library).  Python strings are modelled as `List Char`, Python integers as
`Int` (counts and indices as `Nat`), fallible operations return
`Except PyError`, and the global pseudo-random source
(`random.choice`) is modelled by an explicit stream `g : Nat → Nat`
together with a draw counter: the `k`-th call of `choice(faces)`
returns `faces[g k % len(faces)]`.  Each definition mirrors the Python
function of the same name.
-/

namespace PyDice

/-- The Python exceptions that `dice.py` can raise:
`NotImplementedError` (negative dice pools), the bare `Exception` raised by
`roll` when nothing parses (carrying the whitespace-stripped string),
`SyntaxError` from `add_modifiers` (carrying the offending token),
`ValueError` from `int()` on a non-numeric literal (carrying the literal),
`AttributeError` (calling `.groupdict()` on a failed `re.match`, i.e. `None`)
and `IndexError` (`random.choice` on an empty sequence). -/
inductive PyError where
  | notImplementedError (msg : String)
  | parseException (s : List Char)
  | syntaxError (tok : List Char)
  | valueError (tok : List Char)
  | attributeError
  | indexError
  deriving DecidableEq, Repr

/-! ## The three regular expressions

`DICE_PATTERN = r'[+-]?\d+d\d+[v^]?\d*'`,
`MODIFIER_PATTERN = r'[+-]\d+'` and
`ROLL_STRING_PATTERN = r'(?P<n_dice>\d+)d(?P<x_size>\d+)(?P<keep>[\^v]\d+)?(?P<mod>[+-]\d+)?'`.

Each is simple enough that Python's leftmost-greedy backtracking search is
equivalent to a deterministic scan: a greedy `\d+` before the literal `d`
never needs to backtrack (shrinking the digit run only exposes another
digit, never a `d`), and the optional groups are followed only by optional
material, so taking them greedily can never cause a later failure. -/

/-- The optional greedy `[+-]?` at the head: the consumed sign (if any)
and the remainder. -/
def signSplit (s : List Char) : List Char × List Char :=
  match s with
  | c :: rest => if c = '+' ∨ c = '-' then ([c], rest) else ([], c :: rest)
  | [] => ([], [])

/-- The optional greedy `[v^]?`: the consumed keep letter (if any) and the
remainder. -/
def keepSplit (s : List Char) : List Char × List Char :=
  match s with
  | c :: rest => if c = 'v' ∨ c = '^' then ([c], rest) else ([], c :: rest)
  | [] => ([], [])

/-- Attempt to match `DICE_PATTERN = [+-]?\d+d\d+[v^]?\d*` at the head of
`s`.  Returns `(matched, rest)` on success. -/
def matchDice (s : List Char) : Option (List Char × List Char) :=
  let sgn := (signSplit s).1
  let s1 := (signSplit s).2
  let n := s1.takeWhile Char.isDigit
  let s2 := s1.dropWhile Char.isDigit
  if n.isEmpty then none
  else
    match s2 with
    | [] => none
    | c :: s3 =>
      if c = 'd' then
        let x := s3.takeWhile Char.isDigit
        let s4 := s3.dropWhile Char.isDigit
        if x.isEmpty then none
        else
          let kc := (keepSplit s4).1
          let s5 := (keepSplit s4).2
          let kd := s5.takeWhile Char.isDigit
          let s6 := s5.dropWhile Char.isDigit
          some (sgn ++ n ++ c :: (x ++ kc ++ kd), s6)
      else none

/-- Attempt to match `MODIFIER_PATTERN = [+-]\d+` at the head of `s`. -/
def matchMod (s : List Char) : Option (List Char × List Char) :=
  match s with
  | c :: rest =>
    if c = '+' ∨ c = '-' then
      let ds := rest.takeWhile Char.isDigit
      if ds.isEmpty then none
      else some (c :: ds, rest.dropWhile Char.isDigit)
    else none
  | [] => none

/-- `re.findall` / `re.sub` scan the subject left to right, consuming each
non-overlapping match and advancing one character past positions where no
match starts.  Both patterns only produce non-empty matches, so each step
consumes at least one character; we make the recursion structural with a
fuel argument (the callers pass the subject's length, which always
suffices). -/
def diceFindallF : Nat → List Char → List (List Char)
  | 0, _ => []
  | _, [] => []
  | fuel + 1, c :: rest =>
    match matchDice (c :: rest) with
    | some (m, r) => m :: diceFindallF fuel r
    | none => diceFindallF fuel rest

/-- `DICE_PATTERN.findall(s)`. -/
def diceFindall (s : List Char) : List (List Char) :=
  diceFindallF s.length s

/-- `DICE_PATTERN.sub("X", s)`: replace every match by a single `'X'`. -/
def diceSubF : Nat → List Char → List Char
  | 0, s => s
  | _, [] => []
  | fuel + 1, c :: rest =>
    match matchDice (c :: rest) with
    | some (_, r) => 'X' :: diceSubF fuel r
    | none => c :: diceSubF fuel rest

/-- `DICE_PATTERN.sub("X", s)`. -/
def diceSub (s : List Char) : List Char :=
  diceSubF s.length s

/-- `MODIFIER_PATTERN.findall(s)`. -/
def modFindallF : Nat → List Char → List (List Char)
  | 0, _ => []
  | _, [] => []
  | fuel + 1, c :: rest =>
    match matchMod (c :: rest) with
    | some (m, r) => m :: modFindallF fuel r
    | none => modFindallF fuel rest

/-- `MODIFIER_PATTERN.findall(s)`. -/
def modFindall (s : List Char) : List (List Char) :=
  modFindallF s.length s

/-- The optional group `(?P<keep>[\^v]\d+)?`: the parsed keep group (if
the letter is followed by at least one digit) and the remainder. -/
def keepGroup (s : List Char) :
    Option (Char × List Char) × List Char :=
  match s with
  | c :: rest =>
    if c = '^' ∨ c = 'v' then
      let kd := rest.takeWhile Char.isDigit
      if kd.isEmpty then (none, c :: rest)
      else (some (c, kd), rest.dropWhile Char.isDigit)
    else (none, c :: rest)
  | [] => (none, [])

/-- The optional group `(?P<mod>[+-]\d+)?`. -/
def modGroup (s : List Char) : Option (Char × List Char) :=
  match s with
  | c :: rest =>
    if c = '+' ∨ c = '-' then
      let md := rest.takeWhile Char.isDigit
      if md.isEmpty then none else some (c, md)
    else none
  | [] => none

/-- `ROLL_STRING_PATTERN.match(s)`: anchored prefix match returning the
groups `(n_dice, x_size, keep, mod)`; `keep` is the keep letter (`'^'` or
`'v'`) with its digits, `mod` the sign with its digits.  `None` when the
mandatory part `\d+d\d+` does not match a prefix. -/
def rollStringMatch (s : List Char) :
    Option (List Char × List Char × Option (Char × List Char) × Option (Char × List Char)) :=
  let n := s.takeWhile Char.isDigit
  let s1 := s.dropWhile Char.isDigit
  if n.isEmpty then none
  else
    match s1 with
    | [] => none
    | c :: s2 =>
      if c = 'd' then
        let x := s2.takeWhile Char.isDigit
        let s3 := s2.dropWhile Char.isDigit
        if x.isEmpty then none
        else
          let keep := (keepGroup s3).1
          let s4 := (keepGroup s3).2
          some (n, x, keep, modGroup s4)
      else none

/-- Value of a string of decimal digits (`int` on a digit string). -/
def digitsVal (ds : List Char) : Nat :=
  ds.foldl (fun n c => 10 * n + (c.toNat - '0'.toNat)) 0

/-- `re.sub(r'\s+', '', s)`: delete every whitespace character. -/
def stripWS (s : List Char) : List Char :=
  s.filter (fun c => ! c.isWhitespace)

/-! ## `Die` -/

/-- A die together with the result of rolling it (class `Die`).
`mod` is an `Int`: the only call site that passes a callable (`roll_ndx`
with `plus_half=True`, dead code never reached from the parser and whose
`result` would raise `TypeError` in Python) is outside every claim and is
not modelled.  `raw` is `None` until the die is rolled. -/
structure Die where
  faces : List Int
  mod : Int
  above_okay : Bool
  below_okay : Bool
  name : Option String
  raw : Option Int
  deriving DecidableEq, Repr

/-- `Die.__init__(faces, mod, above_okay, below_okay, name, raw)`.
The source sets `self.below_okay = False` unconditionally, ignoring the
`below_okay` argument (`dice.py` line 46).  The `roll_now` argument is
`False` at every call site reached from the claims and is not modelled. -/
def Die.init (faces : List Int) (mod : Int) (above_okay below_okay : Bool)
    (name : Option String) (raw : Option Int) : Die :=
  { faces := faces
    mod := mod
    above_okay := above_okay
    below_okay := false
    name := name
    raw := raw }

/-- `random.choice(seq)`: a uniform element of `seq`, `IndexError` when
`seq` is empty.  The stream `g` supplies the random index for draw `k`. -/
def pyChoice (g : Nat → Nat) (k : Nat) (seq : List Int) : Except PyError Int :=
  match seq.get? (g k % seq.length) with
  | some v => .ok v
  | none => .error .indexError

/-- `Die.roll`: store a fresh raw value (consumes draw `k`).  The Python
method also returns `self.result`; the caller-visible state is the die. -/
def Die.roll (g : Nat → Nat) (k : Nat) (d : Die) : Except PyError Die :=
  match pyChoice g k d.faces with
  | .ok v => .ok { d with raw := some v }
  | .error e => .error e

/-- `sorted(self.faces)[-1]`.  The `getD 0` default is only reached for an
empty face list, where Python would raise `IndexError`; every theorem that
touches `high_face` either carries `faces ≠ []` or concerns a die whose
`raw` was produced by `pyChoice` (which fails on empty faces). -/
def Die.high_face (d : Die) : Int :=
  ((d.faces.insertionSort (· ≤ ·)).getLast?).getD 0

/-- `sorted(self.faces)[0]` (same remark as `Die.high_face`). -/
def Die.low_face (d : Die) : Int :=
  ((d.faces.insertionSort (· ≤ ·)).head?).getD 0

/-- `Die.result`: `None` if unrolled; otherwise `raw + mod` clamped to
`[low_face, high_face]` unless `above_okay` / `below_okay` allow exceeding
the respective bound (`dice.py` lines 57-68). -/
def Die.result (d : Die) : Option Int :=
  match d.raw with
  | none => none
  | some raw =>
    let r := raw + d.mod
    if r > d.high_face ∧ ¬ d.above_okay then some d.high_face
    else if r < d.low_face ∧ ¬ d.below_okay then some d.low_face
    else some r

/-- `range(1, size+1)` as a list of `Int`: the faces of `DN(size)`. -/
def rangeFaces (size : Nat) : List Int :=
  (List.range size).map (fun (i : Nat) => (i : Int) + 1)

/-- `DN(size)`: a die with faces `1..size` and name `'Die (dN)'`. -/
def DN (size : Nat) : Die :=
  { Die.init (rangeFaces size) 0 false false none none with
    name := some ("Die (d" ++ toString size ++ ")") }

/-! ## `Throw` and `Roll` -/

/-- Class `Throw`: a fixed collection of dice rolled together. -/
structure Throw where
  dice : List Die
  deriving DecidableEq, Repr

/-- `Throw.throw`: roll every held die, in storage order; die `i` consumes
draw `k + i`.  Returns the updated dice and the next free draw index. -/
def throwAll (g : Nat → Nat) : Nat → List Die → Except PyError (List Die × Nat)
  | k, [] => .ok ([], k)
  | k, d :: ds =>
    match Die.roll g k d with
    | .error e => .error e
    | .ok d' =>
      match throwAll g (k + 1) ds with
      | .error e => .error e
      | .ok (ds', k') => .ok (d' :: ds', k')

/-- `Throw.result`: each die's current result, in storage order. -/
def Throw.result (t : Throw) : List (Option Int) :=
  t.dice.map Die.result

/-- Class `Roll`: wraps a `Throw`, a scalar modifier and the dropped dice.
The field names follow the Python attributes (`_dropped_dice` → `dropped_dice`). -/
structure Roll where
  plus_pip : Bool
  throw : Throw
  total_mod : Int
  n_dice : Option Nat
  x_size : Option Nat
  dropped_dice : List Die
  deriving DecidableEq, Repr

/-- `Roll.__init__(dice, plus_pip, total_mod, roll_now, n_dice, x_size)`:
builds `Throw(dice, roll_now)` (rolling all dice when `roll_now`) and
starts with `_dropped_dice = []`. -/
def Roll.init (dice : List Die) (plus_pip : Bool) (total_mod : Int)
    (roll_now : Bool) (n_dice x_size : Option Nat) (g : Nat → Nat) (k : Nat) :
    Except PyError (Roll × Nat) :=
  if roll_now then
    match throwAll g k dice with
    | .error e => .error e
    | .ok (dice', k') =>
      .ok ({ plus_pip := plus_pip, throw := ⟨dice'⟩, total_mod := total_mod,
             n_dice := n_dice, x_size := x_size, dropped_dice := [] }, k')
  else
    .ok ({ plus_pip := plus_pip, throw := ⟨dice⟩, total_mod := total_mod,
           n_dice := n_dice, x_size := x_size, dropped_dice := [] }, k)

/-- `Roll.dice` property: the kept dice. -/
def Roll.dice (r : Roll) : List Die :=
  r.throw.dice

/-- `Roll.raw_dice` property: `self.dice + self._dropped_dice`. -/
def Roll.raw_dice (r : Roll) : List Die :=
  r.dice ++ r.dropped_dice

/-- `sum(r for r in self.throw.result)`: `None` anywhere raises
`TypeError` in Python, modelled as `none`. -/
def optSum : List (Option Int) → Option Int
  | [] => some 0
  | o :: t =>
    match o with
    | none => none
    | some v =>
      match optSum t with
      | none => none
      | some s => some (v + s)

/-- `Roll.sum` property. -/
def Roll.sum (r : Roll) : Option Int :=
  optSum r.throw.result

/-- `Roll.total` property: `self.sum + self.total_mod`. -/
def Roll.total (r : Roll) : Option Int :=
  r.sum.map (· + r.total_mod)

/-- The die's current result with a default, used only as a sort key for
dice that are all rolled (comparing an unrolled `None` result would raise
`TypeError` in Python 3). -/
def resD (d : Die) : Int :=
  d.result.getD 0

/-- The comparator `cmp(x.result, y.result)` fed to `sorted` via
`cmp_to_key` (ascending by result); as a total preorder. -/
def dieLE (x y : Die) : Prop :=
  resD x ≤ resD y

/-- The comparator `cmp(y.result, x.result)` (descending by result). -/
def dieGE (x y : Die) : Prop :=
  resD y ≤ resD x

instance : DecidableRel dieLE :=
  fun x y => inferInstanceAs (Decidable (resD x ≤ resD y))

instance : DecidableRel dieGE :=
  fun x y => inferInstanceAs (Decidable (resD y ≤ resD x))

instance : IsTotal Die dieLE :=
  ⟨fun x y => Int.le_total (resD x) (resD y)⟩

instance : IsTrans Die dieLE :=
  ⟨fun _ _ _ h h' => le_trans h h'⟩

instance : IsTotal Die dieGE :=
  ⟨fun x y => Int.le_total (resD y) (resD x)⟩

instance : IsTrans Die dieGE :=
  ⟨fun _ _ _ h h' => le_trans h' h⟩

/-- `Roll.faces` property: `[d.result for d in sorted(self.dice,
key=cmp_to_key(lambda x, y: cmp(x.result, y.result)))]`.  Python's sort is
stable, and for a total preorder every stable sort produces the same list,
so `List.insertionSort` (stable) is a faithful model.  When some die is
unrolled the comparison `None < int` raises `TypeError` in Python 3,
modelled as `none`. -/
def Roll.faces (r : Roll) : Option (List Int) :=
  if r.dice.all (fun d => d.result.isSome) then
    some ((r.dice.insertionSort dieLE).map resD)
  else none

/-- The sorted kept-dice list that `Roll.faces` reads off. -/
def Roll.sorted_dice (r : Roll) : List Die :=
  r.dice.insertionSort dieLE

/-! ## Constructors and the notation parser -/

/-- `ndx(n_dice, x_size) = [DN(x_size) for n in range(n_dice)]`. -/
def ndx (n_dice x_size : Nat) : List Die :=
  List.replicate n_dice (DN x_size)

/-- `roll_ndx(n_dice, x_size, total_mod)` (the spec's `roll_n_of_size`):
direct construction bypassing string parsing.  The `plus_half` branch
(never taken from the parser or any claim) is not modelled. -/
def roll_ndx (n_dice : Nat) (x_size : Nat) (total_mod : Int)
    (g : Nat → Nat) (k : Nat) : Except PyError (Roll × Nat) :=
  Roll.init (ndx n_dice x_size) false total_mod true none none g k

/-- `int` applied to a group of `MODIFIER_PATTERN` / `ROLL_STRING_PATTERN`
digits with an explicit sign character. -/
def signedVal (c : Char) (ds : List Char) : Int :=
  if c = '-' then -(digitsVal ds : Int) else (digitsVal ds : Int)

/-- `parse_dice_group`, up to (and including) the keep/drop partition: the
internal `Roll` named `r` in the source, before the final `return r.dice`
throws it (and with it `r._dropped_dice`) away.

Source steps (`dice.py` lines 192-243): strip every `'+'` if one occurs,
else raise `NotImplementedError` if a `'-'` occurs; match
`ROLL_STRING_PATTERN` (a failed match leaves `m = None` and
`m.groupdict()` raises `AttributeError`); build the roll with
`roll_ndx(n_dice, x_size, mod)`; record `n_dice` / `x_size`; if a keep
group is present, stably sort the dice by result (descending for `'^'`,
ascending for `'v'`), keep the first `keep_n` and move the rest into
`_dropped_dice`. -/
def parse_dice_group_roll (g : Nat → Nat) (k : Nat) (s0 : List Char) :
    Except PyError (Roll × Nat) :=
  let step : Except PyError (List Char) :=
    if s0.contains '+' then .ok (s0.filter (fun c => c ≠ '+'))
    else if s0.contains '-' then
      .error (.notImplementedError "Sorry, negative dice are not (yet!) supported")
    else .ok s0
  match step with
  | .error e => .error e
  | .ok s =>
    match rollStringMatch s with
    | none => .error .attributeError
    | some (nd, xs, keep, md) =>
      let n_dice := digitsVal nd
      let x_size := digitsVal xs
      let mod : Int :=
        match md with
        | some (c, ds) => signedVal c ds
        | none => 0
      match roll_ndx n_dice x_size mod g k with
      | .error e => .error e
      | .ok (r0, k') =>
        let r1 := { r0 with n_dice := some n_dice, x_size := some x_size }
        match keep with
        | none => .ok (r1, k')
        | some (kc, kd) =>
          let keep_n := digitsVal kd
          let s :=
            if kc = '^' then r1.dice.insertionSort dieGE
            else r1.dice.insertionSort dieLE
          .ok ({ r1 with
                   dropped_dice := r1.dropped_dice ++ s.drop keep_n,
                   throw := ⟨s.take keep_n⟩ }, k')

/-- `parse_dice_group(string)`: `return r.dice` — only the kept dice
survive; the internal `Roll` (with its `_dropped_dice`) is discarded. -/
def parse_dice_group (g : Nat → Nat) (k : Nat) (s0 : List Char) :
    Except PyError (List Die × Nat) :=
  match parse_dice_group_roll g k s0 with
  | .error e => .error e
  | .ok (r, k') => .ok (r.dice, k')

/-- `int(m)` for the tail `m[1:]` of a modifier token: Python's `int`
accepts an optional sign followed by digits and raises `ValueError`
otherwise (the `ValueError` carries the literal).  Python additionally
tolerates surrounding whitespace and interior underscores; no reachable
call site (and no claim) exercises that, and it is not modelled. -/
def pyInt (s : List Char) : Except PyError Int :=
  match s with
  | [] => .error (.valueError [])
  | c :: ds =>
    if c = '+' then
      if ds ≠ [] ∧ ds.all Char.isDigit then .ok (digitsVal ds)
      else .error (.valueError (c :: ds))
    else if c = '-' then
      if ds ≠ [] ∧ ds.all Char.isDigit then .ok (-(digitsVal ds : Int))
      else .error (.valueError (c :: ds))
    else
      if (c :: ds).all Char.isDigit then .ok (digitsVal (c :: ds))
      else .error (.valueError (c :: ds))

/-- `add_modifiers(iter_of_modifiers)`: fold the tokens, adding `int(m[1:])`
for a leading `'+'`, subtracting for a leading `'-'`, and raising
`SyntaxError` (carrying the token) otherwise.  An empty token would raise
`IndexError` on `m[0]`. -/
def add_modifiers : List (List Char) → Except PyError Int
  | [] => .ok 0
  | m :: ms =>
    match m with
    | [] => .error .indexError
    | c :: rest =>
      if c = '+' then
        match pyInt rest, add_modifiers ms with
        | .ok v, .ok total => .ok (v + total)
        | .error e, _ => .error e
        | _, .error e => .error e
      else if c = '-' then
        match pyInt rest, add_modifiers ms with
        | .ok v, .ok total => .ok (-v + total)
        | .error e, _ => .error e
        | _, .error e => .error e
      else .error (.syntaxError m)

/-- The loop `for d in dice_matches: dice += parse_dice_group(d)` of
`roll`, threading the draw counter through the groups in order. -/
def rollDiceGroups (g : Nat → Nat) : Nat → List (List Char) →
    Except PyError (List Die × Nat)
  | k, [] => .ok ([], k)
  | k, t :: ts =>
    match parse_dice_group g k t with
    | .error e => .error e
    | .ok (ds, k') =>
      match rollDiceGroups g k' ts with
      | .error e => .error e
      | .ok (rest, k'') => .ok (ds ++ rest, k'')

/-- `roll(string)` (`dice.py` lines 265-293): strip whitespace, find all
dice-group tokens, replace them by `"X"` and find the flat-modifier
tokens, raise when both lists are empty, parse every dice group, sum the
modifiers and build the final `Roll` — whose construction (with the
default `roll_now=True`) rolls every surviving die once more. -/
def roll (g : Nat → Nat) (s0 : List Char) : Except PyError Roll :=
  let s := stripWS s0
  let dice_matches := diceFindall s
  let edited := diceSub s
  let modifier_matches := modFindall edited
  if dice_matches.isEmpty ∧ modifier_matches.isEmpty then
    .error (.parseException s)
  else
    match rollDiceGroups g 0 dice_matches with
    | .error e => .error e
    | .ok (dice, k) =>
      match add_modifiers modifier_matches with
      | .error e => .error e
      | .ok total_mod =>
        match Roll.init dice false total_mod true none none g k with
        | .error e => .error e
        | .ok (r, _) => .ok r

/-! ## Auxiliary predicates and concrete random streams -/

/-- The digit set of the claims' strings. -/
def isDigits (l : List Char) : Prop :=
  ∀ c ∈ l, c.isDigit

instance (l : List Char) : Decidable (isDigits l) :=
  inferInstanceAs (Decidable (∀ c ∈ l, c.isDigit = true))

/-- A flat-modifier token matches `[+-]\d+`. -/
def isModTok (t : List Char) : Prop :=
  ∃ c ds, t = c :: ds ∧ (c = '+' ∨ c = '-') ∧ ds ≠ [] ∧ isDigits ds

/-- A concrete random stream: every draw picks index 0 (each die shows its
lowest face). -/
def g0 : Nat → Nat := fun _ => 0

/-- A concrete random stream: the first draw picks index 1, all later
draws pick index 0. -/
def g1 : Nat → Nat := fun k => if k = 0 then 1 else 0

/-! ## Supporting lemmas: characters and spans -/

theorem digit_ne_plus {c : Char} (h : c.isDigit = true) : c ≠ '+' := by
  rintro rfl; simp at h

theorem digit_ne_minus {c : Char} (h : c.isDigit = true) : c ≠ '-' := by
  rintro rfl; simp at h

theorem digit_ne_d {c : Char} (h : c.isDigit = true) : c ≠ 'd' := by
  rintro rfl; simp at h

theorem digit_not_ws {c : Char} (h : c.isDigit = true) : c.isWhitespace = false := by
  cases hw : c.isWhitespace with
  | false => rfl
  | true =>
    simp only [Char.isWhitespace, Bool.or_eq_true, decide_eq_true_eq] at hw
    rcases hw with ((rfl | rfl) | rfl) | rfl <;> simp at h

theorem takeWhile_all_append {p : Char → Bool} {a : List Char} (c0 : Char)
    (t : List Char) (ha : ∀ c ∈ a, p c) (hc : p c0 = false) :
    (a ++ c0 :: t).takeWhile p = a := by
  induction a with
  | nil => simp [List.takeWhile_cons, hc]
  | cons x xs ih =>
    have hx : p x = true := ha x (by simp)
    simp only [List.cons_append, List.takeWhile_cons, hx, if_true]
    rw [ih (fun c hcm => ha c (by simp [hcm]))]

theorem dropWhile_all_append {p : Char → Bool} {a : List Char} (c0 : Char)
    (t : List Char) (ha : ∀ c ∈ a, p c) (hc : p c0 = false) :
    (a ++ c0 :: t).dropWhile p = c0 :: t := by
  induction a with
  | nil => simp [List.dropWhile_cons, hc]
  | cons x xs ih =>
    have hx : p x = true := ha x (by simp)
    simp only [List.cons_append, List.dropWhile_cons, hx, if_true]
    exact ih (fun c hcm => ha c (by simp [hcm]))

theorem signSplit_no_sign {s : List Char}
    (h : ∀ c, s.head? = some c → ¬ (c = '+' ∨ c = '-')) :
    signSplit s = ([], s) := by
  cases s with
  | nil => rfl
  | cons c rest => simp [signSplit, h c rfl]

theorem keepSplit_no_keep {s : List Char}
    (h : ∀ c, s.head? = some c → ¬ (c = 'v' ∨ c = '^')) :
    keepSplit s = ([], s) := by
  cases s with
  | nil => rfl
  | cons c rest => simp [keepSplit, h c rfl]

theorem head_digits_not_sign {a t : List Char} (hne : a ≠ []) (ha : isDigits a) :
    ∀ c, (a ++ t).head? = some c → ¬ (c = '+' ∨ c = '-') := by
  obtain ⟨x, xs, rfl⟩ := List.exists_cons_of_ne_nil hne
  intro c hc
  have hx : x = c := by simpa using hc
  subst hx
  have hd := ha x (by simp)
  rintro (rfl | rfl) <;> simp at hd

/-! ### `matchDice` on the strings the claims use -/

theorem matchDice_ndx {a b : List Char} (hane : a ≠ []) (ha : isDigits a)
    (hbne : b ≠ []) (hb : isDigits b) :
    matchDice (a ++ 'd' :: b) = some (a ++ 'd' :: b, []) := by
  have h1 : signSplit (a ++ 'd' :: b) = ([], a ++ 'd' :: b) :=
    signSplit_no_sign (head_digits_not_sign hane ha)
  have htw : (a ++ 'd' :: b).takeWhile Char.isDigit = a :=
    takeWhile_all_append 'd' b ha (by decide)
  have hdw : (a ++ 'd' :: b).dropWhile Char.isDigit = 'd' :: b :=
    dropWhile_all_append 'd' b ha (by decide)
  have htwb : b.takeWhile Char.isDigit = b := List.takeWhile_eq_self_iff.mpr hb
  have hdwb : b.dropWhile Char.isDigit = [] := List.dropWhile_eq_nil_iff.mpr hb
  have hae : a.isEmpty = false := by simp [List.isEmpty_iff, hane]
  have hbe : b.isEmpty = false := by simp [List.isEmpty_iff, hbne]
  unfold matchDice
  simp [h1, htw, hdw, htwb, hdwb, hae, hbe, keepSplit]

theorem matchDice_ndx_mod {a b m : List Char} {sg : Char}
    (hane : a ≠ []) (ha : isDigits a) (hbne : b ≠ []) (hb : isDigits b)
    (hsg : sg = '+' ∨ sg = '-') :
    matchDice (a ++ 'd' :: (b ++ sg :: m)) = some (a ++ 'd' :: b, sg :: m) := by
  have hsgd : sg.isDigit = false := by rcases hsg with rfl | rfl <;> decide
  have hsgk : ¬ (sg = 'v' ∨ sg = '^') := by rcases hsg with rfl | rfl <;> decide
  have h1 : signSplit (a ++ 'd' :: (b ++ sg :: m)) = ([], a ++ 'd' :: (b ++ sg :: m)) :=
    signSplit_no_sign (head_digits_not_sign hane ha)
  have htw : (a ++ 'd' :: (b ++ sg :: m)).takeWhile Char.isDigit = a :=
    takeWhile_all_append 'd' (b ++ sg :: m) ha (by decide)
  have hdw : (a ++ 'd' :: (b ++ sg :: m)).dropWhile Char.isDigit = 'd' :: (b ++ sg :: m) :=
    dropWhile_all_append 'd' (b ++ sg :: m) ha (by decide)
  have htwb : (b ++ sg :: m).takeWhile Char.isDigit = b :=
    takeWhile_all_append sg m hb hsgd
  have hdwb : (b ++ sg :: m).dropWhile Char.isDigit = sg :: m :=
    dropWhile_all_append sg m hb hsgd
  have hks : keepSplit (sg :: m) = ([], sg :: m) :=
    keepSplit_no_keep (fun c hc => by
      have : sg = c := by simpa using hc
      subst this
      exact hsgk)
  have hae : a.isEmpty = false := by simp [List.isEmpty_iff, hane]
  have hbe : b.isEmpty = false := by simp [List.isEmpty_iff, hbne]
  have htwm : (sg :: m).takeWhile Char.isDigit = [] := by
    simp [List.takeWhile_cons, hsgd]
  have hdwm : (sg :: m).dropWhile Char.isDigit = sg :: m := by
    simp [List.dropWhile_cons, hsgd]
  unfold matchDice
  simp [h1, htw, hdw, htwb, hdwb, hks, hae, hbe, htwm, hdwm]

theorem matchDice_ndx_keep {a b kd : List Char} {kc : Char}
    (hane : a ≠ []) (ha : isDigits a) (hbne : b ≠ []) (hb : isDigits b)
    (hkc : kc = 'v' ∨ kc = '^') (hkd : isDigits kd) :
    matchDice (a ++ 'd' :: (b ++ kc :: kd)) =
      some (a ++ 'd' :: (b ++ kc :: kd), []) := by
  have hkcd : kc.isDigit = false := by rcases hkc with rfl | rfl <;> decide
  have h1 : signSplit (a ++ 'd' :: (b ++ kc :: kd)) = ([], a ++ 'd' :: (b ++ kc :: kd)) :=
    signSplit_no_sign (head_digits_not_sign hane ha)
  have htw : (a ++ 'd' :: (b ++ kc :: kd)).takeWhile Char.isDigit = a :=
    takeWhile_all_append 'd' (b ++ kc :: kd) ha (by decide)
  have hdw : (a ++ 'd' :: (b ++ kc :: kd)).dropWhile Char.isDigit = 'd' :: (b ++ kc :: kd) :=
    dropWhile_all_append 'd' (b ++ kc :: kd) ha (by decide)
  have htwb : (b ++ kc :: kd).takeWhile Char.isDigit = b :=
    takeWhile_all_append kc kd hb hkcd
  have hdwb : (b ++ kc :: kd).dropWhile Char.isDigit = kc :: kd :=
    dropWhile_all_append kc kd hb hkcd
  have hks : keepSplit (kc :: kd) = ([kc], kd) := by
    simp [keepSplit, hkc]
  have htwk : kd.takeWhile Char.isDigit = kd := List.takeWhile_eq_self_iff.mpr hkd
  have hdwk : kd.dropWhile Char.isDigit = [] := List.dropWhile_eq_nil_iff.mpr hkd
  have hae : a.isEmpty = false := by simp [List.isEmpty_iff, hane]
  have hbe : b.isEmpty = false := by simp [List.isEmpty_iff, hbne]
  unfold matchDice
  simp [h1, htw, hdw, htwb, hdwb, hks, htwk, hdwk, hae, hbe]

/-! ### Structure of an arbitrary `DICE_PATTERN` match -/

theorem signSplit_cases (s : List Char) :
    (signSplit s = ([], s)) ∨
      ∃ c rest, (c = '+' ∨ c = '-') ∧ s = c :: rest ∧ signSplit s = ([c], rest) := by
  cases s with
  | nil => exact .inl rfl
  | cons c rest =>
    by_cases hc : c = '+' ∨ c = '-'
    · exact .inr ⟨c, rest, hc, rfl, by simp [signSplit, hc]⟩
    · exact .inl (by simp [signSplit, hc])

theorem keepSplit_cases (s : List Char) :
    (keepSplit s = ([], s)) ∨
      ∃ c rest, (c = 'v' ∨ c = '^') ∧ s = c :: rest ∧ keepSplit s = ([c], rest) := by
  cases s with
  | nil => exact .inl rfl
  | cons c rest =>
    by_cases hc : c = 'v' ∨ c = '^'
    · exact .inr ⟨c, rest, hc, rfl, by simp [keepSplit, hc]⟩
    · exact .inl (by simp [keepSplit, hc])

/-- Any successful `DICE_PATTERN` match decomposes as
`[+-]? digits 'd' digits [v^]? digits*`, and the remainder is the
unconsumed suffix. -/
theorem matchDice_shape {s m r : List Char} (h : matchDice s = some (m, r)) :
    ∃ sgn n x kc kd,
      m = sgn ++ n ++ 'd' :: (x ++ kc ++ kd) ∧
      (sgn = [] ∨ sgn = ['+'] ∨ sgn = ['-']) ∧
      n ≠ [] ∧ isDigits n ∧ x ≠ [] ∧ isDigits x ∧
      (kc = [] ∨ kc = ['v'] ∨ kc = ['^']) ∧ isDigits kd ∧
      s = m ++ r := by
  unfold matchDice at h
  have hsgn : ∃ sgn s1, (signSplit s).1 = sgn ∧ (signSplit s).2 = s1 ∧
      (sgn = [] ∨ sgn = ['+'] ∨ sgn = ['-']) ∧ s = sgn ++ s1 := by
    rcases signSplit_cases s with h0 | ⟨c, rest, hc, hs, h0⟩
    · exact ⟨[], s, by simp [h0], by simp [h0], .inl rfl, by simp⟩
    · refine ⟨[c], rest, by simp [h0], by simp [h0], ?_, by simp [hs]⟩
      rcases hc with rfl | rfl
      · exact .inr (.inl rfl)
      · exact .inr (.inr rfl)
  obtain ⟨sgn, s1, hp1, hp2, hsgn3, hsgn4⟩ := hsgn
  rw [hp1, hp2] at h
  by_cases hn : (s1.takeWhile Char.isDigit).isEmpty
  · simp [hn] at h
  · rw [if_neg hn] at h
    cases hd : s1.dropWhile Char.isDigit with
    | nil => rw [hd] at h; exact absurd h (by simp)
    | cons c s3 =>
      rw [hd] at h
      simp only [] at h
      by_cases hc : c = 'd'
      · rw [if_pos hc] at h
        subst hc
        by_cases hx : (s3.takeWhile Char.isDigit).isEmpty
        · simp [hx] at h
        · rw [if_neg hx] at h
          have hkc : ∃ kc s5, (keepSplit (s3.dropWhile Char.isDigit)).1 = kc ∧
              (keepSplit (s3.dropWhile Char.isDigit)).2 = s5 ∧
              (kc = [] ∨ kc = ['v'] ∨ kc = ['^']) ∧
              s3.dropWhile Char.isDigit = kc ++ s5 := by
            rcases keepSplit_cases (s3.dropWhile Char.isDigit) with h0 | ⟨c', rest', hc', hs', h0⟩
            · exact ⟨[], s3.dropWhile Char.isDigit, by simp [h0], by simp [h0], .inl rfl, by simp⟩
            · refine ⟨[c'], rest', by simp [h0], by simp [h0], ?_, by simp [hs']⟩
              rcases hc' with rfl | rfl
              · exact .inr (.inl rfl)
              · exact .inr (.inr rfl)
          obtain ⟨kc, s5, hk1, hk2, hk3, hk4⟩ := hkc
          rw [hk1, hk2] at h
          obtain ⟨hm, hr⟩ : _ ∧ _ := by
            have := h
            simp only [Option.some.injEq, Prod.mk.injEq] at this
            exact this
          refine ⟨sgn, s1.takeWhile Char.isDigit, s3.takeWhile Char.isDigit, kc,
            s5.takeWhile Char.isDigit, hm.symm, hsgn3, ?_, ?_, ?_, ?_, hk3, ?_, ?_⟩
          · simpa [List.isEmpty_iff] using hn
          · exact fun c hcm => List.mem_takeWhile_imp hcm
          · simpa [List.isEmpty_iff] using hx
          · exact fun c hcm => List.mem_takeWhile_imp hcm
          · exact fun c hcm => List.mem_takeWhile_imp hcm
          · rw [hsgn4, ← hm, ← hr]
            have e1 : s1 = s1.takeWhile Char.isDigit ++ ('d' :: s3) := by
              rw [← hd, List.takeWhile_append_dropWhile]
            have e2 : s3 = s3.takeWhile Char.isDigit ++ (kc ++ s5) := by
              rw [← hk4, List.takeWhile_append_dropWhile]
            have e3 : s5 = s5.takeWhile Char.isDigit ++ s5.dropWhile Char.isDigit :=
              (List.takeWhile_append_dropWhile Char.isDigit s5).symm
            conv_lhs => rw [e1, e2, e3]
            simp
      · rw [if_neg hc] at h
        exact absurd h (by simp)

theorem matchDice_d_mem {s m r : List Char} (h : matchDice s = some (m, r)) :
    'd' ∈ s := by
  obtain ⟨sgn, n, x, kc, kd, hm, -, -, -, -, -, -, -, hs⟩ := matchDice_shape h
  rw [hs, hm]
  simp

theorem matchDice_ne_nil {s m r : List Char} (h : matchDice s = some (m, r)) :
    m ≠ [] := by
  obtain ⟨sgn, n, x, kc, kd, hm, -, hn, -, -, -, -, -, -⟩ := matchDice_shape h
  rw [hm]
  rcases sgn with _ | ⟨c, cs⟩ <;> rcases n with _ | ⟨c', cs'⟩ <;> simp_all

/-- A `DICE_PATTERN` token whose first character is `'-'` contains no
`'+'`, and contains a `'-'`. -/
theorem matchDice_minus_head {s m r : List Char} (h : matchDice s = some (m, r))
    (hm : m.head? = some '-') : ('+' ∉ m) ∧ '-' ∈ m := by
  obtain ⟨sgn, n, x, kc, kd, he, hsgn, hn, hdn, hx, hdx, hkc, hdkd, -⟩ := matchDice_shape h
  have hsgn' : sgn = ['-'] := by
    rcases hsgn with rfl | rfl | rfl
    · exfalso
      obtain ⟨c, cs, rfl⟩ := List.exists_cons_of_ne_nil hn
      rw [he] at hm
      simp only [List.nil_append, List.cons_append, List.head?_cons,
        Option.some.injEq] at hm
      exact digit_ne_minus (hdn c (by simp)) hm
    · exfalso
      rw [he] at hm
      simp at hm
    · rfl
  subst hsgn'
  constructor
  · intro hp
    rw [he] at hp
    rcases List.mem_cons.mp hp with hp1 | hp1
    · exact absurd hp1 (by decide)
    · rcases List.mem_append.mp hp1 with hp2 | hp2
      · exact digit_ne_plus (hdn _ hp2) rfl
      · rcases List.mem_cons.mp hp2 with hp3 | hp3
        · exact absurd hp3 (by decide)
        · rcases List.mem_append.mp hp3 with hp4 | hp4
          · rcases List.mem_append.mp hp4 with hp5 | hp5
            · exact digit_ne_plus (hdx _ hp5) rfl
            · rcases hkc with rfl | rfl | rfl
              · simp at hp5
              · simp only [List.mem_singleton] at hp5
                exact absurd hp5 (by decide)
              · simp only [List.mem_singleton] at hp5
                exact absurd hp5 (by decide)
          · exact digit_ne_plus (hdkd _ hp4) rfl
  · rw [he]
    simp

/-! ### Stepping the scanners -/

theorem diceFindallF_nil (fuel : Nat) : diceFindallF fuel [] = [] := by
  cases fuel <;> rfl

theorem diceFindallF_succ_some {s m r : List Char}
    (h : matchDice s = some (m, r)) (hs : s ≠ []) (fuel : Nat) :
    diceFindallF (fuel + 1) s = m :: diceFindallF fuel r := by
  obtain ⟨c, t, rfl⟩ := List.exists_cons_of_ne_nil hs
  simp [diceFindallF, h]

theorem diceFindallF_succ_none {c : Char} {rest : List Char}
    (h : matchDice (c :: rest) = none) (fuel : Nat) :
    diceFindallF (fuel + 1) (c :: rest) = diceFindallF fuel rest := by
  simp [diceFindallF, h]

theorem matchDice_none_of_no_d {s : List Char} (h : 'd' ∉ s) :
    matchDice s = none := by
  cases hm : matchDice s with
  | none => rfl
  | some p =>
    obtain ⟨m, r⟩ := p
    exact absurd (matchDice_d_mem hm) h

theorem diceFindallF_zero (s : List Char) : diceFindallF 0 s = [] := by
  cases s <;> rfl

theorem diceSubF_zero (s : List Char) : diceSubF 0 s = s := by
  cases s <;> rfl

theorem modFindallF_zero (s : List Char) : modFindallF 0 s = [] := by
  cases s <;> rfl

theorem diceFindallF_no_d {s : List Char} (h : 'd' ∉ s) :
    ∀ fuel, diceFindallF fuel s = [] := by
  intro fuel
  induction fuel generalizing s with
  | zero => exact diceFindallF_zero s
  | succ n ih =>
    cases s with
    | nil => rfl
    | cons c rest =>
      rw [diceFindallF_succ_none (matchDice_none_of_no_d h) n]
      exact ih (fun hm => h (List.mem_cons_of_mem c hm))

theorem diceSubF_nil (fuel : Nat) : diceSubF fuel [] = [] := by
  cases fuel <;> rfl

theorem diceSubF_succ_some {s m r : List Char}
    (h : matchDice s = some (m, r)) (hs : s ≠ []) (fuel : Nat) :
    diceSubF (fuel + 1) s = 'X' :: diceSubF fuel r := by
  obtain ⟨c, t, rfl⟩ := List.exists_cons_of_ne_nil hs
  simp [diceSubF, h]

theorem diceSubF_succ_none {c : Char} {rest : List Char}
    (h : matchDice (c :: rest) = none) (fuel : Nat) :
    diceSubF (fuel + 1) (c :: rest) = c :: diceSubF fuel rest := by
  simp [diceSubF, h]

theorem diceSubF_no_d {s : List Char} (h : 'd' ∉ s) :
    ∀ fuel, diceSubF fuel s = s := by
  intro fuel
  induction fuel generalizing s with
  | zero => exact diceSubF_zero s
  | succ n ih =>
    cases s with
    | nil => rfl
    | cons c rest =>
      rw [diceSubF_succ_none (matchDice_none_of_no_d h) n]
      rw [ih (fun hm => h (List.mem_cons_of_mem c hm))]

/-- When the dice scan finds nothing, the substitution is the identity. -/
theorem diceSubF_eq_self {fuel : Nat} {s : List Char}
    (h : diceFindallF fuel s = []) : diceSubF fuel s = s := by
  induction fuel generalizing s with
  | zero => exact diceSubF_zero s
  | succ n ih =>
    cases s with
    | nil => rfl
    | cons c rest =>
      cases hm : matchDice (c :: rest) with
      | some p =>
        obtain ⟨m, r⟩ := p
        rw [diceFindallF_succ_some hm (by simp) n] at h
        simp at h
      | none =>
        rw [diceFindallF_succ_none hm n] at h
        rw [diceSubF_succ_none hm n, ih h]

/-- Every token produced by the dice scan is a `DICE_PATTERN` match. -/
theorem diceFindallF_tokens {fuel : Nat} {s t : List Char}
    (h : t ∈ diceFindallF fuel s) :
    ∃ s' r', matchDice s' = some (t, r') := by
  induction fuel generalizing s with
  | zero => simp [diceFindallF] at h
  | succ n ih =>
    cases s with
    | nil => simp [diceFindallF] at h
    | cons c rest =>
      cases hm : matchDice (c :: rest) with
      | some p =>
        obtain ⟨m, r⟩ := p
        rw [diceFindallF_succ_some hm (by simp) n] at h
        rcases List.mem_cons.mp h with rfl | h'
        · exact ⟨c :: rest, r, hm⟩
        · exact ih h'
      | none =>
        rw [diceFindallF_succ_none hm n] at h
        exact ih h

theorem modFindallF_nil (fuel : Nat) : modFindallF fuel [] = [] := by
  cases fuel <;> rfl

theorem modFindallF_succ_some {s m r : List Char}
    (h : matchMod s = some (m, r)) (hs : s ≠ []) (fuel : Nat) :
    modFindallF (fuel + 1) s = m :: modFindallF fuel r := by
  obtain ⟨c, t, rfl⟩ := List.exists_cons_of_ne_nil hs
  simp [modFindallF, h]

theorem modFindallF_succ_none {c : Char} {rest : List Char}
    (h : matchMod (c :: rest) = none) (fuel : Nat) :
    modFindallF (fuel + 1) (c :: rest) = modFindallF fuel rest := by
  simp [modFindallF, h]

theorem matchMod_cons_nosign {c : Char} {rest : List Char}
    (h : ¬ (c = '+' ∨ c = '-')) : matchMod (c :: rest) = none := by
  simp [matchMod, h]

theorem matchMod_sign_digits {sg : Char} {m : List Char}
    (hsg : sg = '+' ∨ sg = '-') (hm : m ≠ []) (hd : isDigits m) :
    matchMod (sg :: m) = some (sg :: m, []) := by
  have htw : m.takeWhile Char.isDigit = m := List.takeWhile_eq_self_iff.mpr hd
  have hdw : m.dropWhile Char.isDigit = [] := List.dropWhile_eq_nil_iff.mpr hd
  have hme : m.isEmpty = false := by simp [List.isEmpty_iff, hm]
  simp [matchMod, hsg, htw, hdw, hme]

/-- Every token produced by the modifier scan is a `MODIFIER_PATTERN`
match: a sign character followed by a non-empty run of digits. -/
theorem matchMod_shape {s m r : List Char} (h : matchMod s = some (m, r)) :
    ∃ c ds, m = c :: ds ∧ (c = '+' ∨ c = '-') ∧ ds ≠ [] ∧ isDigits ds := by
  cases s with
  | nil => simp [matchMod] at h
  | cons c rest =>
    unfold matchMod at h
    simp only [] at h
    by_cases hc : c = '+' ∨ c = '-'
    · rw [if_pos hc] at h
      by_cases he : (rest.takeWhile Char.isDigit).isEmpty
      · simp [he] at h
      · rw [if_neg he] at h
        simp only [Option.some.injEq, Prod.mk.injEq] at h
        refine ⟨c, rest.takeWhile Char.isDigit, h.1.symm, hc, ?_, ?_⟩
        · simpa [List.isEmpty_iff] using he
        · exact fun c' hcm => List.mem_takeWhile_imp hcm
    · rw [if_neg hc] at h
      simp at h

theorem modFindallF_tokens {fuel : Nat} {s t : List Char}
    (h : t ∈ modFindallF fuel s) :
    ∃ c ds, t = c :: ds ∧ (c = '+' ∨ c = '-') ∧ ds ≠ [] ∧ isDigits ds := by
  induction fuel generalizing s with
  | zero => simp [modFindallF] at h
  | succ n ih =>
    cases s with
    | nil => simp [modFindallF] at h
    | cons c rest =>
      cases hm : matchMod (c :: rest) with
      | some p =>
        obtain ⟨m, r⟩ := p
        rw [modFindallF_succ_some hm (by simp) n] at h
        rcases List.mem_cons.mp h with rfl | h'
        · exact matchMod_shape hm
        · exact ih h'
      | none =>
        rw [modFindallF_succ_none hm n] at h
        exact ih h

theorem diceFindall_cons {s m r : List Char}
    (h : matchDice s = some (m, r)) (hs : s ≠ []) :
    ∃ fuel, diceFindall s = m :: diceFindallF fuel r := by
  obtain ⟨c, t, rfl⟩ := List.exists_cons_of_ne_nil hs
  refine ⟨t.length, ?_⟩
  show diceFindallF (c :: t).length (c :: t) = _
  rw [List.length_cons, diceFindallF_succ_some h hs]

theorem diceSub_cons {s m r : List Char}
    (h : matchDice s = some (m, r)) (hs : s ≠ []) :
    ∃ fuel, diceSub s = 'X' :: diceSubF fuel r := by
  obtain ⟨c, t, rfl⟩ := List.exists_cons_of_ne_nil hs
  refine ⟨t.length, ?_⟩
  show diceSubF (c :: t).length (c :: t) = _
  rw [List.length_cons, diceSubF_succ_some h hs]

/-! ### Tokenizing the claims' expressions -/

theorem ndx_ne_nil {a b : List Char} {c : Char} : a ++ c :: b ≠ [] := by
  cases a <;> simp

/-- Tokenizing `NdX`: one dice token, no modifier token. -/
theorem tokenize_ndx {a b : List Char} (hane : a ≠ []) (ha : isDigits a)
    (hbne : b ≠ []) (hb : isDigits b) :
    diceFindall (a ++ 'd' :: b) = [a ++ 'd' :: b] ∧
      diceSub (a ++ 'd' :: b) = ['X'] ∧
      modFindall ['X'] = [] := by
  have hm := matchDice_ndx hane ha hbne hb
  refine ⟨?_, ?_, rfl⟩
  · obtain ⟨fuel, hf⟩ := diceFindall_cons hm ndx_ne_nil
    rw [hf, diceFindallF_nil]
  · obtain ⟨fuel, hf⟩ := diceSub_cons hm ndx_ne_nil
    rw [hf, diceSubF_nil]

/-- Tokenizing `NdX±M`: one dice token `NdX` and one modifier token `±M`. -/
theorem tokenize_ndx_mod {a b m : List Char} {sg : Char}
    (hane : a ≠ []) (ha : isDigits a) (hbne : b ≠ []) (hb : isDigits b)
    (hsg : sg = '+' ∨ sg = '-') (hmne : m ≠ []) (hdm : isDigits m) :
    diceFindall (a ++ 'd' :: (b ++ sg :: m)) = [a ++ 'd' :: b] ∧
      diceSub (a ++ 'd' :: (b ++ sg :: m)) = 'X' :: sg :: m ∧
      modFindall ('X' :: sg :: m) = [sg :: m] := by
  have hmt := @matchDice_ndx_mod a b m sg hane ha hbne hb hsg
  have hnod : 'd' ∉ sg :: m := by
    intro hmem
    rcases List.mem_cons.mp hmem with h' | h'
    · rcases hsg with rfl | rfl <;> simp at h'
    · exact absurd (hdm 'd' h') (by decide)
  refine ⟨?_, ?_, ?_⟩
  · obtain ⟨fuel, hf⟩ := diceFindall_cons hmt ndx_ne_nil
    rw [hf, diceFindallF_no_d hnod]
  · obtain ⟨fuel, hf⟩ := diceSub_cons hmt ndx_ne_nil
    rw [hf, diceSubF_no_d hnod]
  · have h1 : matchMod ('X' :: sg :: m) = none := matchMod_cons_nosign (by decide)
    show modFindallF ('X' :: sg :: m).length ('X' :: sg :: m) = [sg :: m]
    rw [show ('X' :: sg :: m).length = (sg :: m).length + 1 from rfl,
        modFindallF_succ_none h1,
        show (sg :: m).length = m.length + 1 from rfl,
        modFindallF_succ_some (matchMod_sign_digits hsg hmne hdm) (by simp),
        modFindallF_nil]

/-- Tokenizing `NdX^K` / `NdXvK`: a single dice token covering the whole
expression, no modifier token. -/
theorem tokenize_ndx_keep {a b kd : List Char} {kc : Char}
    (hane : a ≠ []) (ha : isDigits a) (hbne : b ≠ []) (hb : isDigits b)
    (hkc : kc = 'v' ∨ kc = '^') (hkd : isDigits kd) :
    diceFindall (a ++ 'd' :: (b ++ kc :: kd)) = [a ++ 'd' :: (b ++ kc :: kd)] ∧
      diceSub (a ++ 'd' :: (b ++ kc :: kd)) = ['X'] ∧
      modFindall ['X'] = [] := by
  have hm := matchDice_ndx_keep hane ha hbne hb hkc hkd
  refine ⟨?_, ?_, rfl⟩
  · obtain ⟨fuel, hf⟩ := diceFindall_cons hm ndx_ne_nil
    rw [hf, diceFindallF_nil]
  · obtain ⟨fuel, hf⟩ := diceSub_cons hm ndx_ne_nil
    rw [hf, diceSubF_nil]

/-! ### `ROLL_STRING_PATTERN` on the claims' dice groups -/

theorem rollStringMatch_ndx {a b : List Char} (hane : a ≠ []) (ha : isDigits a)
    (hbne : b ≠ []) (hb : isDigits b) :
    rollStringMatch (a ++ 'd' :: b) = some (a, b, none, none) := by
  have htw : (a ++ 'd' :: b).takeWhile Char.isDigit = a :=
    takeWhile_all_append 'd' b ha (by decide)
  have hdw : (a ++ 'd' :: b).dropWhile Char.isDigit = 'd' :: b :=
    dropWhile_all_append 'd' b ha (by decide)
  have htwb : b.takeWhile Char.isDigit = b := List.takeWhile_eq_self_iff.mpr hb
  have hdwb : b.dropWhile Char.isDigit = [] := List.dropWhile_eq_nil_iff.mpr hb
  have hae : a.isEmpty = false := by simp [List.isEmpty_iff, hane]
  have hbe : b.isEmpty = false := by simp [List.isEmpty_iff, hbne]
  unfold rollStringMatch
  simp [htw, hdw, htwb, hdwb, hae, hbe, keepGroup, modGroup]

theorem rollStringMatch_ndx_keep {a b kd : List Char} {kc : Char}
    (hane : a ≠ []) (ha : isDigits a) (hbne : b ≠ []) (hb : isDigits b)
    (hkc : kc = 'v' ∨ kc = '^') (hkdne : kd ≠ []) (hkd : isDigits kd) :
    rollStringMatch (a ++ 'd' :: (b ++ kc :: kd)) =
      some (a, b, some (kc, kd), none) := by
  have hkc' : kc = '^' ∨ kc = 'v' := hkc.elim .inr .inl
  have htw : (a ++ 'd' :: (b ++ kc :: kd)).takeWhile Char.isDigit = a :=
    takeWhile_all_append 'd' (b ++ kc :: kd) ha (by decide)
  have hdw : (a ++ 'd' :: (b ++ kc :: kd)).dropWhile Char.isDigit = 'd' :: (b ++ kc :: kd) :=
    dropWhile_all_append 'd' (b ++ kc :: kd) ha (by decide)
  have hkcd : kc.isDigit = false := by rcases hkc with rfl | rfl <;> decide
  have htwb : (b ++ kc :: kd).takeWhile Char.isDigit = b :=
    takeWhile_all_append kc kd hb hkcd
  have hdwb : (b ++ kc :: kd).dropWhile Char.isDigit = kc :: kd :=
    dropWhile_all_append kc kd hb hkcd
  have htwk : kd.takeWhile Char.isDigit = kd := List.takeWhile_eq_self_iff.mpr hkd
  have hdwk : kd.dropWhile Char.isDigit = [] := List.dropWhile_eq_nil_iff.mpr hkd
  have hae : a.isEmpty = false := by simp [List.isEmpty_iff, hane]
  have hbe : b.isEmpty = false := by simp [List.isEmpty_iff, hbne]
  have hke : kd.isEmpty = false := by simp [List.isEmpty_iff, hkdne]
  have hkg : keepGroup (kc :: kd) = (some (kc, kd), []) := by
    simp [keepGroup, hkc', htwk, hdwk, hke]
  unfold rollStringMatch
  simp [htw, hdw, htwb, hdwb, hae, hbe, hkg, modGroup]

/-! ### Whitespace stripping on clean strings -/

theorem stripWS_eq_self {s : List Char} (h : ∀ c ∈ s, c.isWhitespace = false) :
    stripWS s = s :=
  List.filter_eq_self.mpr (fun c hc => by simp [h c hc])

theorem ndx_no_ws {a b : List Char} (ha : isDigits a) (hb : isDigits b) :
    ∀ c ∈ a ++ 'd' :: b, c.isWhitespace = false := by
  intro c hc
  rcases List.mem_append.mp hc with h' | h'
  · exact digit_not_ws (ha c h')
  · rcases List.mem_cons.mp h' with rfl | h'
    · decide
    · exact digit_not_ws (hb c h')

theorem ndx_tail_no_ws {b t : List Char} {c0 : Char} (hb : isDigits b)
    (hc0 : c0.isWhitespace = false) (ht : isDigits t) :
    ∀ c ∈ b ++ c0 :: t, c.isWhitespace = false := by
  intro c hc
  rcases List.mem_append.mp hc with h' | h'
  · exact digit_not_ws (hb c h')
  · rcases List.mem_cons.mp h' with rfl | h'
    · exact hc0
    · exact digit_not_ws (ht c h')

/-! ### Sorted-list bounds, faces and results of dice -/

theorem sorted_head_le {l : List Int} (hs : l.Sorted (· ≤ ·)) {v : Int}
    (hv : v ∈ l) : l.head?.getD 0 ≤ v := by
  cases l with
  | nil => simp at hv
  | cons a t =>
    rcases List.mem_cons.mp hv with rfl | hv'
    · simp
    · simpa using (List.sorted_cons.mp hs).1 v hv'

theorem le_sorted_getLast :
    ∀ {l : List Int}, l.Sorted (· ≤ ·) → ∀ {v : Int}, v ∈ l →
      v ≤ l.getLast?.getD 0
  | [], _, _, hv => absurd hv (by simp)
  | [a], _, v, hv => by
    simp only [List.mem_singleton] at hv
    simp [hv]
  | a :: b :: t, hs, v, hv => by
    rw [List.getLast?_cons_cons]
    rcases List.mem_cons.mp hv with rfl | hv'
    · have hab : v ≤ b := (List.sorted_cons.mp hs).1 b (by simp)
      exact le_trans hab (le_sorted_getLast (List.sorted_cons.mp hs).2 (by simp))
    · exact le_sorted_getLast (List.sorted_cons.mp hs).2 hv'

theorem low_face_le_of_mem {d : Die} {v : Int} (hv : v ∈ d.faces) :
    d.low_face ≤ v :=
  sorted_head_le (List.sorted_insertionSort _ _)
    ((List.mem_insertionSort _).mpr hv)

theorem le_high_face_of_mem {d : Die} {v : Int} (hv : v ∈ d.faces) :
    v ≤ d.high_face :=
  le_sorted_getLast (List.sorted_insertionSort _ _)
    ((List.mem_insertionSort _).mpr hv)

theorem low_face_le_high_face (d : Die) : d.low_face ≤ d.high_face := by
  unfold Die.low_face Die.high_face
  cases hf : d.faces.insertionSort (· ≤ ·) with
  | nil => simp
  | cons a t =>
    have hs : (a :: t).Sorted (· ≤ ·) := hf ▸ List.sorted_insertionSort _ _
    have := le_sorted_getLast hs (List.mem_cons_self a t)
    simpa using this

theorem result_none_of_unrolled {d : Die} (h : d.raw = none) : d.result = none := by
  unfold Die.result
  rw [h]

theorem result_some_of_raw {d : Die} {w : Int} (h : d.raw = some w) :
    ∃ v, d.result = some v := by
  unfold Die.result
  rw [h]
  simp only []
  split_ifs <;> exact ⟨_, rfl⟩

theorem result_of_mem_nomod {d : Die} {v : Int} (hm : d.mod = 0)
    (hraw : d.raw = some v) (hv : v ∈ d.faces) : d.result = some v := by
  unfold Die.result
  rw [hraw]
  simp only []
  rw [hm, add_zero]
  rw [if_neg, if_neg]
  · rintro ⟨hlt, -⟩
    exact absurd (low_face_le_of_mem hv) (not_le.mpr hlt)
  · rintro ⟨hgt, -⟩
    exact absurd (le_high_face_of_mem hv) (not_le.mpr hgt)

theorem result_ge_low {d : Die} {v : Int} (hbo : d.below_okay = false)
    (h : d.result = some v) : d.low_face ≤ v := by
  unfold Die.result at h
  cases hraw : d.raw with
  | none => rw [hraw] at h; exact absurd h (by simp)
  | some w =>
    rw [hraw] at h
    simp only [] at h
    by_cases h1 : w + d.mod > d.high_face ∧ ¬ (d.above_okay = true)
    · rw [if_pos h1] at h
      injection h with h
      rw [← h]
      exact low_face_le_high_face d
    · rw [if_neg h1] at h
      by_cases h2 : w + d.mod < d.low_face ∧ ¬ (d.below_okay = true)
      · rw [if_pos h2] at h
        injection h with h
        rw [← h]
      · rw [if_neg h2] at h
        injection h with h
        rw [← h]
        rw [hbo] at h2
        simp only [Bool.false_eq_true, not_false_eq_true, and_true] at h2
        exact not_lt.mp h2

theorem result_le_high {d : Die} {v : Int} (hao : d.above_okay = false)
    (h : d.result = some v) : v ≤ d.high_face := by
  unfold Die.result at h
  cases hraw : d.raw with
  | none => rw [hraw] at h; exact absurd h (by simp)
  | some w =>
    rw [hraw] at h
    simp only [] at h
    by_cases h1 : w + d.mod > d.high_face ∧ ¬ (d.above_okay = true)
    · rw [if_pos h1] at h
      injection h with h
      rw [← h]
    · rw [if_neg h1] at h
      rw [hao] at h1
      simp only [Bool.false_eq_true, not_false_eq_true, and_true] at h1
      by_cases h2 : w + d.mod < d.low_face ∧ ¬ (d.below_okay = true)
      · rw [if_pos h2] at h
        injection h with h
        rw [← h]
        exact low_face_le_high_face d
      · rw [if_neg h2] at h
        injection h with h
        rw [← h]
        exact not_lt.mp h1

theorem result_eq_of_inrange {d : Die} {w : Int} (hraw : d.raw = some w)
    (hlo : d.low_face ≤ w + d.mod) (hhi : w + d.mod ≤ d.high_face) :
    d.result = some (w + d.mod) := by
  unfold Die.result
  rw [hraw]
  simp only []
  rw [if_neg, if_neg]
  · rintro ⟨hlt, -⟩
    exact absurd hlo (not_le.mpr hlt)
  · rintro ⟨hgt, -⟩
    exact absurd hhi (not_le.mpr hgt)

theorem result_isSome_of_raw {d : Die} (h : d.raw.isSome) : d.result.isSome := by
  obtain ⟨w, hw⟩ := Option.isSome_iff_exists.mp h
  obtain ⟨v, hv⟩ := result_some_of_raw hw
  simp [hv]

/-! ### `rangeFaces` -/

theorem mem_rangeFaces {x : Nat} {v : Int} :
    v ∈ rangeFaces x ↔ 1 ≤ v ∧ v ≤ (x : Int) := by
  unfold rangeFaces
  constructor
  · intro hv
    obtain ⟨i, hi, hvi⟩ := List.mem_map.mp hv
    have hix : i < x := List.mem_range.mp hi
    omega
  · rintro ⟨h1, h2⟩
    exact List.mem_map.mpr ⟨(v - 1).toNat, List.mem_range.mpr (by omega), by omega⟩

theorem rangeFaces_length (x : Nat) : (rangeFaces x).length = x := by
  simp [rangeFaces]

theorem rangeFaces_ne_nil {x : Nat} (hx : 1 ≤ x) : rangeFaces x ≠ [] := by
  intro h
  have := rangeFaces_length x
  rw [h] at this
  simp at this
  omega

theorem rangeFaces_sorted (x : Nat) : (rangeFaces x).Sorted (· ≤ ·) := by
  unfold rangeFaces
  refine List.Pairwise.map _ ?_ (List.pairwise_lt_range x)
  intro i j hij
  omega

theorem rangeFaces_succ (n : Nat) :
    rangeFaces (n + 1) = rangeFaces n ++ [(n : Int) + 1] := by
  unfold rangeFaces
  rw [List.range_succ, List.map_append]
  rfl

theorem die_rangeFaces_low_high {x : Nat} (hx : 1 ≤ x) (d : Die)
    (hf : d.faces = rangeFaces x) : d.low_face = 1 ∧ d.high_face = (x : Int) := by
  have hsort : d.faces.insertionSort (· ≤ ·) = rangeFaces x := by
    rw [hf]
    exact List.Sorted.insertionSort_eq (rangeFaces_sorted x)
  constructor
  · unfold Die.low_face
    rw [hsort]
    obtain ⟨n, rfl⟩ : ∃ n, x = n + 1 := ⟨x - 1, by omega⟩
    unfold rangeFaces
    rw [List.range_succ_eq_map]
    simp
  · unfold Die.high_face
    rw [hsort]
    obtain ⟨n, rfl⟩ : ∃ n, x = n + 1 := ⟨x - 1, by omega⟩
    rw [rangeFaces_succ, List.getLast?_concat]
    rfl

/-! ### Sums -/

theorem optSum_bounds {X : Int} :
    ∀ {l : List (Option Int)},
      (∀ o ∈ l, ∃ v, o = some v ∧ 1 ≤ v ∧ v ≤ X) →
      ∃ s, optSum l = some s ∧ (l.length : Int) ≤ s ∧ s ≤ (l.length : Int) * X
  | [], _ => ⟨0, rfl, by simp⟩
  | o :: t, h => by
    obtain ⟨v, hv, hv1, hv2⟩ := h o (by simp)
    obtain ⟨s, hs, hs1, hs2⟩ :=
      optSum_bounds (fun o' ho' => h o' (List.mem_cons_of_mem o ho'))
    have hlen : (((o :: t).length : Nat) : Int) = (t.length : Int) + 1 := by
      simp
    refine ⟨v + s, ?_, ?_, ?_⟩
    · simp only [optSum, hv, hs]
    · rw [hlen]
      omega
    · rw [hlen, add_mul, one_mul]
      exact add_le_add hv2 hs2 |>.trans_eq (add_comm _ _) |>.trans_eq rfl |>.trans
        (le_of_eq (by ring)) |>.trans (le_refl _)

theorem optSum_isSome {l : List (Option Int)} (h : ∀ o ∈ l, o.isSome) :
    ∃ s, optSum l = some s := by
  induction l with
  | nil => exact ⟨0, rfl⟩
  | cons o t ih =>
    obtain ⟨v, hv⟩ := Option.isSome_iff_exists.mp (h o (by simp))
    obtain ⟨s, hs⟩ := ih (fun o' ho' => h o' (List.mem_cons_of_mem o ho'))
    exact ⟨v + s, by simp only [optSum, hv, hs]⟩

/-! ### `throwAll` -/

/-- Successfully throwing dice with non-empty faces: every die keeps its
static fields and receives a fresh raw value drawn from its faces; the
draw counter advances by the number of dice. -/
theorem throwAll_ok {g : Nat → Nat} :
    ∀ {dice : List Die} (_ : ∀ d ∈ dice, d.faces ≠ []) (k : Nat),
      ∃ dice', throwAll g k dice = .ok (dice', k + dice.length) ∧
        dice'.length = dice.length ∧
        List.Forall₂ (fun d d' => d'.faces = d.faces ∧ d'.mod = d.mod ∧
          d'.above_okay = d.above_okay ∧ d'.below_okay = d.below_okay ∧
          ∃ v ∈ d.faces, d'.raw = some v) dice dice'
  | [], _, k => ⟨[], by simp [throwAll], rfl, .nil⟩
  | d :: ds, h, k => by
    have hd : d.faces ≠ [] := h d (by simp)
    have hlen : 0 < d.faces.length := List.length_pos.mpr hd
    have hidx : g k % d.faces.length < d.faces.length := Nat.mod_lt _ hlen
    have hget : d.faces.get? (g k % d.faces.length) =
        some (d.faces.get ⟨g k % d.faces.length, hidx⟩) := List.get?_eq_get hidx
    obtain ⟨ds', hds, hlen', hfa⟩ :=
      @throwAll_ok g ds (fun d' hm => h d' (List.mem_cons_of_mem d hm)) (k + 1)
    refine ⟨{ d with raw := some (d.faces.get ⟨g k % d.faces.length, hidx⟩) } :: ds',
      ?_, by simp [hlen'], ?_⟩
    · unfold throwAll Die.roll pyChoice
      rw [hget]
      simp only [hds]
      have : k + 1 + ds.length = k + (d :: ds).length := by
        simp
        omega
      rw [this]
    · exact .cons ⟨rfl, rfl, rfl, rfl, _, List.get_mem _ _ _, rfl⟩ hfa

/-- Any successful throw leaves every die rolled. -/
theorem throwAll_ok_raw {g : Nat → Nat} :
    ∀ {dice dice' : List Die} {k k' : Nat},
      throwAll g k dice = .ok (dice', k') → ∀ d' ∈ dice', d'.raw.isSome
  | [], dice', k, k', h => by
    unfold throwAll at h
    cases h
    intro d' hd'
    simp at hd'
  | d :: ds, dice', k, k', h => by
    unfold throwAll at h
    cases hr : Die.roll g k d with
    | error e => rw [hr] at h; simp at h
    | ok d0 =>
      rw [hr] at h
      simp only [] at h
      cases hrest : throwAll g (k + 1) ds with
      | error e => rw [hrest] at h; simp at h
      | ok p =>
        obtain ⟨ds', k''⟩ := p
        rw [hrest] at h
        simp only [] at h
        cases h
        intro d' hd'
        rcases List.mem_cons.mp hd' with rfl | hd'
        · unfold Die.roll pyChoice at hr
          cases hget : d.faces.get? (g k % d.faces.length) with
          | none => rw [hget] at hr; simp at hr
          | some v =>
            rw [hget] at hr
            simp only [Except.ok.injEq] at hr
            rw [← hr]
            simp
        · exact throwAll_ok_raw hrest d' hd'

theorem forall₂_mem_right {α β : Type} {R : α → β → Prop} :
    ∀ {l : List α} {l' : List β}, List.Forall₂ R l l' →
      ∀ b ∈ l', ∃ a ∈ l, R a b
  | _, _, .nil, b, hb => absurd hb (by simp)
  | _, _, .cons h t, b, hb => by
    rcases List.mem_cons.mp hb with rfl | hb'
    · exact ⟨_, by simp, h⟩
    · obtain ⟨a, ha, hr⟩ := forall₂_mem_right t b hb'
      exact ⟨a, List.mem_cons_of_mem _ ha, hr⟩

/-! ### `Roll.init` and `roll_ndx` -/

/-- Building a `Roll` with `roll_now = True` over dice with non-empty
faces: all dice get rolled, nothing is dropped. -/
theorem Roll_init_ok {g : Nat → Nat} {k : Nat} {dice : List Die}
    (h : ∀ d ∈ dice, d.faces ≠ []) (pp : Bool) (tm : Int)
    (nd xs : Option Nat) :
    ∃ r, Roll.init dice pp tm true nd xs g k = .ok (r, k + dice.length) ∧
      r.total_mod = tm ∧ r.dropped_dice = [] ∧ r.plus_pip = pp ∧
      r.n_dice = nd ∧ r.x_size = xs ∧ r.dice.length = dice.length ∧
      List.Forall₂ (fun d d' => d'.faces = d.faces ∧ d'.mod = d.mod ∧
        d'.above_okay = d.above_okay ∧ d'.below_okay = d.below_okay ∧
        ∃ v ∈ d.faces, d'.raw = some v) dice r.dice := by
  obtain ⟨dice', hthrow, hlen, hfa⟩ := @throwAll_ok g dice h k
  refine ⟨{ plus_pip := pp, throw := ⟨dice'⟩, total_mod := tm,
            n_dice := nd, x_size := xs, dropped_dice := [] }, ?_, rfl, rfl, rfl,
          rfl, rfl, hlen, hfa⟩
  unfold Roll.init
  rw [if_pos rfl, hthrow]

/-- `roll_ndx n x m` with `x ≥ 1`: `n` fresh `DN(x)` dice, all rolled,
each result in `[1, x]`; nothing dropped; total modifier `m`. -/
theorem roll_ndx_ok {g : Nat → Nat} {k n x : Nat} (hx : 1 ≤ x) (m : Int) :
    ∃ r, roll_ndx n x m g k = .ok (r, k + n) ∧
      r.total_mod = m ∧ r.dropped_dice = [] ∧ r.dice.length = n ∧
      ∀ d ∈ r.dice, d.faces = rangeFaces x ∧ d.mod = 0 ∧
        d.above_okay = false ∧ d.below_okay = false ∧
        ∃ v, d.raw = some v ∧ d.result = some v ∧ 1 ≤ v ∧ v ≤ (x : Int) := by
  have hfaces : ∀ d ∈ ndx n x, d.faces ≠ [] := by
    intro d hd
    have : d = DN x := List.eq_of_mem_replicate hd
    rw [this]
    exact rangeFaces_ne_nil hx
  obtain ⟨r, hinit, htm, hdrop, hpp, hnd, hxs, hlen, hfa⟩ :=
    @Roll_init_ok g k (ndx n x) hfaces false m none none
  refine ⟨r, ?_, htm, hdrop, ?_, ?_⟩
  · unfold roll_ndx
    rw [hinit]
    have : (ndx n x).length = n := by simp [ndx]
    rw [this]
  · rw [hlen]
    simp [ndx]
  · intro d' hd'
    obtain ⟨d, hd, hfaces', hmod, hao, hbo, v, hv, hraw⟩ := forall₂_mem_right hfa d' hd'
    have hdn : d = DN x := List.eq_of_mem_replicate hd
    subst hdn
    have hfr : d'.faces = rangeFaces x := by
      rw [hfaces']
      rfl
    have hmr : d'.mod = 0 := by rw [hmod]; rfl
    have hvr : v ∈ rangeFaces x := hv
    obtain ⟨h1, h2⟩ := mem_rangeFaces.mp hvr
    refine ⟨hfr, hmr, by rw [hao]; rfl, by rw [hbo]; rfl, v, hraw, ?_, h1, h2⟩
    exact result_of_mem_nomod hmr hraw (by rw [hfr]; exact hvr)

/-- Transferring the `roll_ndx`-die properties across a re-roll that keeps
the static fields. -/
theorem rolled_DN_props {x : Nat} {d d' : Die}
    (hf : d.faces = rangeFaces x) (hm : d.mod = 0)
    (hao : d.above_okay = false) (hbo : d.below_okay = false)
    (hfaces' : d'.faces = d.faces) (hmod : d'.mod = d.mod)
    (hao' : d'.above_okay = d.above_okay) (hbo' : d'.below_okay = d.below_okay)
    {v : Int} (hv : v ∈ d.faces) (hraw : d'.raw = some v) :
    d'.faces = rangeFaces x ∧ d'.mod = 0 ∧ d'.above_okay = false ∧
      d'.below_okay = false ∧
      ∃ w, d'.raw = some w ∧ d'.result = some w ∧ 1 ≤ w ∧ w ≤ (x : Int) := by
  have hf' : d'.faces = rangeFaces x := by rw [hfaces', hf]
  have hm' : d'.mod = 0 := by rw [hmod, hm]
  have hv' : v ∈ d'.faces := by rw [hf', ← hf]; exact hv
  obtain ⟨h1, h2⟩ := mem_rangeFaces.mp (by rw [← hf']; exact hv' : v ∈ rangeFaces x)
  exact ⟨hf', hm', by rw [hao', hao], by rw [hbo', hbo],
    v, hraw, result_of_mem_nomod hm' hraw hv', h1, h2⟩

/-! ### `parse_dice_group` on a plain `NdX` group -/

theorem ndx_no_plus {a b : List Char} (ha : isDigits a) (hb : isDigits b) :
    '+' ∉ a ++ 'd' :: b := by
  intro hmem
  rcases List.mem_append.mp hmem with h' | h'
  · exact absurd (ha _ h') (by decide)
  · rcases List.mem_cons.mp h' with h' | h'
    · exact absurd h' (by decide)
    · exact absurd (hb _ h') (by decide)

theorem ndx_no_minus {a b : List Char} (ha : isDigits a) (hb : isDigits b) :
    '-' ∉ a ++ 'd' :: b := by
  intro hmem
  rcases List.mem_append.mp hmem with h' | h'
  · exact absurd (ha _ h') (by decide)
  · rcases List.mem_cons.mp h' with h' | h'
    · exact absurd h' (by decide)
    · exact absurd (hb _ h') (by decide)

theorem parse_dice_group_ndx {g : Nat → Nat} {k : Nat} {a b : List Char}
    (hane : a ≠ []) (ha : isDigits a) (hbne : b ≠ []) (hb : isDigits b)
    (hx : 1 ≤ digitsVal b) :
    ∃ dice, parse_dice_group g k (a ++ 'd' :: b) = .ok (dice, k + digitsVal a) ∧
      dice.length = digitsVal a ∧
      ∀ d ∈ dice, d.faces = rangeFaces (digitsVal b) ∧ d.mod = 0 ∧
        d.above_okay = false ∧ d.below_okay = false ∧
        ∃ v, d.raw = some v ∧ d.result = some v ∧ 1 ≤ v ∧
          v ≤ (digitsVal b : Int) := by
  have hcp : (a ++ 'd' :: b).contains '+' = false := by
    simpa using ndx_no_plus ha hb
  have hcm : (a ++ 'd' :: b).contains '-' = false := by
    simpa using ndx_no_minus ha hb
  obtain ⟨r, hndx, htm, hdrop, hlen, hprops⟩ :=
    @roll_ndx_ok g k (digitsVal a) (digitsVal b) hx 0
  refine ⟨r.dice, ?_, hlen, hprops⟩
  unfold parse_dice_group parse_dice_group_roll
  rw [hcp, hcm]
  simp only [Bool.false_eq_true, if_false]
  rw [rollStringMatch_ndx hane ha hbne hb]
  simp only []
  rw [hndx]
  rfl

/-! ### `roll` on `NdX` and `NdX±M` -/

theorem add_modifiers_nil : add_modifiers [] = .ok 0 := rfl

theorem pyInt_digits {ds : List Char} (h1 : ds ≠ []) (h2 : isDigits ds) :
    pyInt ds = .ok (digitsVal ds) := by
  cases ds with
  | nil => exact absurd rfl h1
  | cons c t =>
    have hc : c.isDigit := h2 c (by simp)
    unfold pyInt
    simp only []
    rw [if_neg (digit_ne_plus hc), if_neg (digit_ne_minus hc)]
    rw [if_pos]
    exact List.all_eq_true.mpr (fun x hx => by simpa using h2 x hx)

theorem add_modifiers_single {sg : Char} {m : List Char}
    (hsg : sg = '+' ∨ sg = '-') (hmne : m ≠ []) (hdm : isDigits m) :
    add_modifiers [sg :: m] =
      .ok (if sg = '-' then -(digitsVal m : Int) else (digitsVal m : Int)) := by
  rcases hsg with rfl | rfl
  · unfold add_modifiers
    simp only [ite_true]
    rw [pyInt_digits hmne hdm, add_modifiers_nil]
    simp only []
    rw [if_neg (show ¬ (('+' : Char) = '-') from by decide)]
    norm_num
  · unfold add_modifiers
    simp only []
    rw [if_neg (show ¬ (('-' : Char) = '+') from by decide)]
    simp only [ite_true]
    rw [pyInt_digits hmne hdm, add_modifiers_nil]
    simp only [ite_true]
    norm_num

theorem rollDiceGroups_single {g : Nat → Nat} {t : List Char}
    {dice : List Die} {k : Nat}
    (h : parse_dice_group g 0 t = .ok (dice, k)) :
    rollDiceGroups g 0 [t] = .ok (dice, k) := by
  unfold rollDiceGroups
  rw [h]
  simp only []
  unfold rollDiceGroups
  simp

/-- The master lemma for `roll` on a plain `NdX` expression: it succeeds,
yields `N` dice with faces `1..X` (each rolled to a result in `[1, X]`),
drops nothing, and its total lies in `[N, N*X]`. -/
theorem roll_ndx_string {g : Nat → Nat} {a b : List Char}
    (hane : a ≠ []) (ha : isDigits a) (hbne : b ≠ []) (hb : isDigits b)
    (hX : 1 ≤ digitsVal b) :
    ∃ r, roll g (a ++ 'd' :: b) = .ok r ∧
      r.total_mod = 0 ∧ r.dropped_dice = [] ∧ r.dice.length = digitsVal a ∧
      (∀ d ∈ r.dice, d.faces = rangeFaces (digitsVal b) ∧ d.mod = 0 ∧
        d.above_okay = false ∧ d.below_okay = false ∧
        ∃ v, d.raw = some v ∧ d.result = some v ∧ 1 ≤ v ∧
          v ≤ (digitsVal b : Int)) ∧
      ∃ t, r.total = some t ∧ (digitsVal a : Int) ≤ t ∧
        t ≤ (digitsVal a : Int) * (digitsVal b : Int) := by
  have hstrip : stripWS (a ++ 'd' :: b) = a ++ 'd' :: b :=
    stripWS_eq_self (ndx_no_ws ha hb)
  obtain ⟨hfind, hsub, hmods⟩ := tokenize_ndx hane ha hbne hb
  obtain ⟨dice, hpd, hdlen, hdprops⟩ :=
    @parse_dice_group_ndx g 0 a b hane ha hbne hb hX
  rw [Nat.zero_add] at hpd
  have hfaces : ∀ d ∈ dice, d.faces ≠ [] := by
    intro d hd
    obtain ⟨hf, -⟩ := hdprops d hd
    rw [hf]
    exact rangeFaces_ne_nil hX
  obtain ⟨r, hinit, htm, hdrop, -, -, -, hlen2, hfa⟩ :=
    @Roll_init_ok g (digitsVal a) dice hfaces false 0 none none
  have hprops : ∀ d' ∈ r.dice, d'.faces = rangeFaces (digitsVal b) ∧
      d'.mod = 0 ∧ d'.above_okay = false ∧ d'.below_okay = false ∧
      ∃ w, d'.raw = some w ∧ d'.result = some w ∧ 1 ≤ w ∧
        w ≤ (digitsVal b : Int) := by
    intro d' hd'
    obtain ⟨d, hd, hfaces', hmod, hao', hbo', v, hv, hraw⟩ :=
      forall₂_mem_right hfa d' hd'
    obtain ⟨hf0, hm0, ha0, hb0, -⟩ := hdprops d hd
    exact rolled_DN_props hf0 hm0 ha0 hb0 hfaces' hmod hao' hbo'
      (by rw [hf0] at hv ⊢; exact hv) hraw
  refine ⟨r, ?_, htm, hdrop, by rw [hlen2, hdlen], hprops, ?_⟩
  · unfold roll
    simp only [hstrip, hfind, hsub, hmods]
    rw [if_neg (by simp), rollDiceGroups_single hpd]
    simp only []
    rw [add_modifiers_nil]
    simp only []
    rw [hinit]
  · have hres : ∀ o ∈ r.throw.result, ∃ v, o = some v ∧ 1 ≤ v ∧
        v ≤ (digitsVal b : Int) := by
      intro o ho
      obtain ⟨d', hd', rfl⟩ := List.mem_map.mp ho
      obtain ⟨-, -, -, -, w, -, hw, h1, h2⟩ := hprops d' hd'
      exact ⟨w, hw, h1, h2⟩
    obtain ⟨ssum, hsum, hs1, hs2⟩ := optSum_bounds hres
    have hrlen : r.throw.result.length = digitsVal a := by
      unfold Throw.result
      rw [List.length_map]
      show r.dice.length = _
      rw [hlen2, hdlen]
    refine ⟨ssum, ?_, ?_, ?_⟩
    · unfold Roll.total Roll.sum
      rw [hsum, htm]
      simp
    · rw [hrlen] at hs1
      exact hs1
    · rw [hrlen] at hs2
      exact hs2

/-- The master lemma for `roll` on `NdX±M`: the dice behave as for `NdX`,
the flat modifier is `±M`, and the total lies in `[N ± M, N*X ± M]`. -/
theorem roll_ndx_mod_string {g : Nat → Nat} {a b m : List Char} {sg : Char}
    (hane : a ≠ []) (ha : isDigits a) (hbne : b ≠ []) (hb : isDigits b)
    (hsg : sg = '+' ∨ sg = '-') (hmne : m ≠ []) (hdm : isDigits m)
    (hX : 1 ≤ digitsVal b) :
    ∃ r, roll g (a ++ 'd' :: (b ++ sg :: m)) = .ok r ∧
      r.total_mod = (if sg = '-' then -(digitsVal m : Int) else (digitsVal m : Int)) ∧
      r.dropped_dice = [] ∧ r.dice.length = digitsVal a ∧
      ∃ t, r.total = some t ∧
        (digitsVal a : Int) + r.total_mod ≤ t ∧
        t ≤ (digitsVal a : Int) * (digitsVal b : Int) + r.total_mod := by
  have hsgw : sg.isWhitespace = false := by rcases hsg with rfl | rfl <;> decide
  have hstrip : stripWS (a ++ 'd' :: (b ++ sg :: m)) = a ++ 'd' :: (b ++ sg :: m) := by
    refine stripWS_eq_self ?_
    intro c hc
    rcases List.mem_append.mp hc with h' | h'
    · exact digit_not_ws (ha c h')
    · rcases List.mem_cons.mp h' with rfl | h'
      · decide
      · exact ndx_tail_no_ws hb hsgw hdm c h'
  obtain ⟨hfind, hsub, hmods⟩ := tokenize_ndx_mod hane ha hbne hb hsg hmne hdm
  obtain ⟨dice, hpd, hdlen, hdprops⟩ :=
    @parse_dice_group_ndx g 0 a b hane ha hbne hb hX
  rw [Nat.zero_add] at hpd
  have hfaces : ∀ d ∈ dice, d.faces ≠ [] := by
    intro d hd
    obtain ⟨hf, -⟩ := hdprops d hd
    rw [hf]
    exact rangeFaces_ne_nil hX
  set M : Int := (if sg = '-' then -(digitsVal m : Int) else (digitsVal m : Int)) with hM
  obtain ⟨r, hinit, htm, hdrop, -, -, -, hlen2, hfa⟩ :=
    @Roll_init_ok g (digitsVal a) dice hfaces false M none none
  have hprops : ∀ d' ∈ r.dice, d'.faces = rangeFaces (digitsVal b) ∧
      d'.mod = 0 ∧ d'.above_okay = false ∧ d'.below_okay = false ∧
      ∃ w, d'.raw = some w ∧ d'.result = some w ∧ 1 ≤ w ∧
        w ≤ (digitsVal b : Int) := by
    intro d' hd'
    obtain ⟨d, hd, hfaces', hmod, hao', hbo', v, hv, hraw⟩ :=
      forall₂_mem_right hfa d' hd'
    obtain ⟨hf0, hm0, ha0, hb0, -⟩ := hdprops d hd
    exact rolled_DN_props hf0 hm0 ha0 hb0 hfaces' hmod hao' hbo'
      (by rw [hf0] at hv ⊢; exact hv) hraw
  refine ⟨r, ?_, htm, hdrop, by rw [hlen2, hdlen], ?_⟩
  · unfold roll
    simp only [hstrip, hfind, hsub, hmods]
    rw [if_neg (by simp), rollDiceGroups_single hpd]
    simp only []
    rw [add_modifiers_single hsg hmne hdm]
    simp only []
    rw [hinit]
  · have hres : ∀ o ∈ r.throw.result, ∃ v, o = some v ∧ 1 ≤ v ∧
        v ≤ (digitsVal b : Int) := by
      intro o ho
      obtain ⟨d', hd', rfl⟩ := List.mem_map.mp ho
      obtain ⟨-, -, -, -, w, -, hw, h1, h2⟩ := hprops d' hd'
      exact ⟨w, hw, h1, h2⟩
    obtain ⟨ssum, hsum, hs1, hs2⟩ := optSum_bounds hres
    have hrlen : r.throw.result.length = digitsVal a := by
      unfold Throw.result
      rw [List.length_map]
      show r.dice.length = _
      rw [hlen2, hdlen]
    rw [hrlen] at hs1 hs2
    refine ⟨ssum + r.total_mod, ?_, by omega, by omega⟩
    unfold Roll.total Roll.sum
    rw [hsum]
    rfl

/-! ### Negative dice groups (for C4) -/

theorem parse_dice_group_minus {g : Nat → Nat} {k : Nat} {t : List Char}
    (hhead : t.head? = some '-')
    (hshape : ∃ s' r', matchDice s' = some (t, r')) :
    parse_dice_group g k t =
      .error (.notImplementedError "Sorry, negative dice are not (yet!) supported") := by
  obtain ⟨s', r', hm⟩ := hshape
  obtain ⟨hnp, hmm⟩ := matchDice_minus_head hm hhead
  unfold parse_dice_group parse_dice_group_roll
  simp [hnp, hmm]

theorem rollDiceGroups_head_minus {g : Nat → Nat} {k : Nat} {t : List Char}
    {ts : List (List Char)} (hhead : t.head? = some '-')
    (hshape : ∃ s' r', matchDice s' = some (t, r')) :
    rollDiceGroups g k (t :: ts) =
      .error (.notImplementedError "Sorry, negative dice are not (yet!) supported") := by
  unfold rollDiceGroups
  rw [parse_dice_group_minus hhead hshape]

theorem rollDiceGroups_some_minus {g : Nat → Nat} :
    ∀ {toks : List (List Char)} {k : Nat},
      (∀ t ∈ toks, ∃ s' r', matchDice s' = some (t, r')) →
      (∃ t ∈ toks, t.head? = some '-') →
      ∃ e, rollDiceGroups g k toks = .error e
  | [], _, _, hex => by
    obtain ⟨t, ht, -⟩ := hex
    exact absurd ht (by simp)
  | t :: ts, k, hshape, hex => by
    by_cases hh : t.head? = some '-'
    · exact ⟨_, rollDiceGroups_head_minus hh (hshape t (by simp))⟩
    · obtain ⟨t', ht', hh'⟩ := hex
      have ht'' : t' ∈ ts := by
        rcases List.mem_cons.mp ht' with rfl | h'
        · exact absurd hh' hh
        · exact h'
      unfold rollDiceGroups
      cases hp : parse_dice_group g k t with
      | error e => exact ⟨e, rfl⟩
      | ok p =>
        obtain ⟨ds, k'⟩ := p
        obtain ⟨e, he⟩ := @rollDiceGroups_some_minus g ts k'
          (fun u hu => hshape u (List.mem_cons_of_mem t hu)) ⟨t', ht'', hh'⟩
        simp only []
        rw [he]
        exact ⟨e, rfl⟩

/-! ### The parse-error path of `roll` (for C5) -/

theorem roll_no_tokens {g : Nat → Nat} {s : List Char}
    (h1 : diceFindall (stripWS s) = []) (h2 : modFindall (stripWS s) = []) :
    roll g s = .error (.parseException (stripWS s)) := by
  have hsub : diceSub (stripWS s) = stripWS s := diceSubF_eq_self h1
  unfold roll
  simp only [h1, hsub, h2]
  rw [if_pos ⟨rfl, rfl⟩]

theorem modFindall_tokens_ok {s t : List Char} (h : t ∈ modFindall s) :
    isModTok t :=
  modFindallF_tokens h

theorem add_modifiers_bad_head :
    ∀ {pre : List (List Char)} {t : List Char} {post : List (List Char)}
      {c : Char} {rest : List Char},
      (∀ u ∈ pre, isModTok u) → t = c :: rest → c ≠ '+' → c ≠ '-' →
      add_modifiers (pre ++ t :: post) = .error (.syntaxError t)
  | [], t, post, c, rest, _, ht, hcp, hcm => by
    subst ht
    show add_modifiers ((c :: rest) :: post) = _
    unfold add_modifiers
    simp only []
    rw [if_neg hcp, if_neg hcm]
  | u :: pre', t, post, c, rest, hpre, ht, hcp, hcm => by
    obtain ⟨cu, ds, rfl, hcu, hdsne, hds⟩ := hpre u (by simp)
    have hrec : add_modifiers (pre' ++ t :: post) = .error (.syntaxError t) :=
      add_modifiers_bad_head (fun u' hu' => hpre u' (List.mem_cons_of_mem _ hu'))
        ht hcp hcm
    rcases hcu with rfl | rfl
    · show add_modifiers (('+' :: ds) :: (pre' ++ t :: post)) = _
      unfold add_modifiers
      simp only [ite_true]
      rw [pyInt_digits hdsne hds, hrec]
    · show add_modifiers (('-' :: ds) :: (pre' ++ t :: post)) = _
      unfold add_modifiers
      simp only []
      rw [if_neg (show ¬ (('-' : Char) = '+') from by decide)]
      simp only [ite_true]
      rw [pyInt_digits hdsne hds, hrec]

/-! ### Stability of the `faces` sort (for C8) -/

theorem filter_orderedInsert (val : Int) (a : Die) :
    ∀ l : List Die,
      (List.orderedInsert dieLE a l).filter (fun d => resD d = val) =
        if resD a = val then a :: l.filter (fun d => resD d = val)
        else l.filter (fun d => resD d = val)
  | [] => by
    by_cases hpa : resD a = val <;> simp [List.orderedInsert, hpa]
  | b :: l => by
    unfold List.orderedInsert
    by_cases hab : dieLE a b
    · rw [if_pos hab]
      by_cases hpa : resD a = val <;> simp [hpa]
    · rw [if_neg hab]
      have hba : resD b < resD a := lt_of_not_le hab
      by_cases hpb : resD b = val
      · have hpa : ¬ (resD a = val) := by
          intro hpa
          rw [hpa, ← hpb] at hba
          exact lt_irrefl _ hba
        rw [if_neg hpa]
        rw [List.filter_cons, List.filter_cons]
        rw [filter_orderedInsert val a l, if_neg hpa]
      · rw [List.filter_cons, List.filter_cons]
        rw [filter_orderedInsert val a l]
        by_cases hpa : resD a = val <;> simp [hpa, hpb]

theorem filter_insertionSort_dieLE (val : Int) :
    ∀ l : List Die,
      (l.insertionSort dieLE).filter (fun d => resD d = val) =
        l.filter (fun d => resD d = val)
  | [] => rfl
  | a :: l => by
    unfold List.insertionSort
    rw [filter_orderedInsert val a (l.insertionSort dieLE),
        filter_insertionSort_dieLE val l, List.filter_cons]
    by_cases hpa : resD a = val <;> simp [hpa]

/-! ### All dice of a constructed `Roll` are rolled (for C10) -/

theorem Roll_init_raw {dice : List Die} {pp : Bool} {tm : Int}
    {nd xs : Option Nat} {g : Nat → Nat} {k k' : Nat} {r : Roll}
    (h : Roll.init dice pp tm true nd xs g k = .ok (r, k')) :
    ∀ d ∈ r.dice, d.raw.isSome := by
  unfold Roll.init at h
  rw [if_pos rfl] at h
  cases hthrow : throwAll g k dice with
  | error e => rw [hthrow] at h; simp at h
  | ok p =>
    obtain ⟨dice', k''⟩ := p
    rw [hthrow] at h
    simp only [] at h
    cases h
    exact throwAll_ok_raw hthrow

theorem Roll_all_rolled_views {r : Roll} (h : ∀ d ∈ r.dice, d.raw.isSome) :
    (∃ v, r.sum = some v) ∧ (∃ v, r.total = some v) ∧ (∃ l, r.faces = some l) := by
  have hres : ∀ d ∈ r.dice, d.result.isSome := fun d hd =>
    result_isSome_of_raw (h d hd)
  have hores : ∀ o ∈ r.throw.result, o.isSome := by
    intro o ho
    obtain ⟨d, hd, rfl⟩ := List.mem_map.mp ho
    exact hres d hd
  obtain ⟨sv, hs⟩ := optSum_isSome hores
  refine ⟨⟨sv, hs⟩, ⟨sv + r.total_mod, ?_⟩, ?_⟩
  · unfold Roll.total Roll.sum
    rw [hs]
    rfl
  · unfold Roll.faces
    rw [if_pos (List.all_eq_true.mpr (fun d hd => by simpa using hres d hd))]
    exact ⟨_, rfl⟩

/-- A successful `roll` ends in a successful `Roll.init` with
`roll_now = True`, so every die of the returned `Roll` is rolled. -/
theorem roll_ok_raw {g : Nat → Nat} {s : List Char} {r : Roll}
    (h : roll g s = .ok r) : ∀ d ∈ r.dice, d.raw.isSome := by
  unfold roll at h
  simp only [] at h
  split at h
  · exact absurd h (by simp)
  · split at h
    · exact absurd h (by simp)
    · split at h
      · exact absurd h (by simp)
      · split at h
        · exact absurd h (by simp)
        · next r0 k' heq =>
          injection h with h
          subst h
          exact Roll_init_raw heq

/-! ## The claims -/

/-- **C1.**  The claim asserts that the dice dropped by the keep/drop
partition are still present in `raw_dice` of the `Roll` returned by
`roll()`.  On the expression `6d6^3` (random stream `g0`): the invariant
`raw_dice = kept ++ dropped` does hold for the internal `Roll` built by
`parse_dice_group` (3 kept, 3 dropped, 6 raw), but `parse_dice_group`
returns only `r.dice` and `roll()` wraps them in a fresh `Roll` whose
`_dropped_dice` is `[]` — so the `Roll` returned by `roll()` reports only
the 3 kept dice in `raw_dice` and the dropped dice are lost. -/
theorem C1_dropped_dice_lost :
    (parse_dice_group_roll g0 0 ("6d6^3".toList)).map
        (fun p => (p.1.dice.length, p.1.dropped_dice.length, p.1.raw_dice.length)) =
      .ok (3, 3, 6) ∧
    (roll g0 ("6d6^3".toList)).map
        (fun r => (r.dice.length, r.dropped_dice.length, r.raw_dice.length)) =
      .ok (3, 0, 3) :=
  ⟨rfl, rfl⟩

/-- **C2.**  The claim asserts that the `Roll` resulting from `NdX^K`
retains `K` dice whose results are the `K` largest of the original `N`
results.  On `2d2^1` with the stream `g1` (first draw picks face 2, later
draws face 1): `parse_dice_group` rolls `[2, 1]` and keeps the die showing
2 (first conjunct: the kept die's raw value at that point is 2), but the
final `Roll(dice, ...)` built by `roll()` defaults `roll_now=True` and
re-rolls the kept die, which now shows 1 — so the returned result is `[1]`
with total 1, not the largest original result 2. -/
theorem C2_kept_dice_rerolled :
    (parse_dice_group g1 0 ("2d2^1".toList)).map (fun p => p.1.map Die.raw) =
      .ok [some 2] ∧
    (roll g1 ("2d2^1".toList)).map (fun r => (r.dice.map Die.result, r.total)) =
      .ok ([some 1], some 1) :=
  ⟨rfl, rfl⟩

/-- **C4 (counterexample).**  The expression `1d0-3d6` matches two
dice-group tokens, the second with a leading `'-'`; yet `roll` raises
`IndexError` (from `random.choice` on `d0`'s empty face list), not the
`NotImplementedError` "not supported" signal the claim promises for every
expression containing a negative dice-group token. -/
theorem C4_counterexample :
    diceFindall (stripWS ("1d0-3d6".toList)) = ["1d0".toList, "-3d6".toList] ∧
    ("-3d6".toList).head? = some '-' ∧
    roll g0 ("1d0-3d6".toList) = .error .indexError :=
  ⟨rfl, rfl, rfl⟩

/-- **C4 (amended).**  If any matched dice-group token carries a leading
`'-'`, `roll` always raises some error (it never silently parses); the
error is the `NotImplementedError` 'not supported' signal whenever the
negative token is the **first** matched dice-group — an earlier
malformed group may fail first with a different error (see the
counterexample). -/
theorem C4_negative_group_rejected (g : Nat → Nat) (s : List Char) :
    ((∃ t ∈ diceFindall (stripWS s), t.head? = some '-') →
      ∃ e, roll g s = .error e) ∧
    (∀ t ts, diceFindall (stripWS s) = t :: ts → t.head? = some '-' →
      roll g s =
        .error (.notImplementedError "Sorry, negative dice are not (yet!) supported")) := by
  constructor
  · rintro ⟨t, ht, hh⟩
    have hshape : ∀ u ∈ diceFindall (stripWS s), ∃ s' r', matchDice s' = some (u, r') :=
      fun u hu => diceFindallF_tokens hu
    obtain ⟨e, he⟩ := @rollDiceGroups_some_minus g (diceFindall (stripWS s)) 0
      hshape ⟨t, ht, hh⟩
    refine ⟨e, ?_⟩
    unfold roll
    simp only []
    rw [if_neg (fun hc => by
      rw [List.isEmpty_iff.mp hc.1] at ht
      simp at ht)]
    rw [he]
  · intro t ts hfind hh
    have hshape : ∃ s' r', matchDice s' = some (t, r') :=
      diceFindallF_tokens (by rw [show diceFindallF (stripWS s).length (stripWS s) =
        diceFindall (stripWS s) from rfl, hfind]; simp)
    unfold roll
    simp only []
    rw [if_neg (fun hc => by
      rw [hfind] at hc
      simp at hc)]
    rw [hfind, rollDiceGroups_head_minus hh hshape]

/-- **C4 (witness).** -/
theorem C4_amended_witness :
    (∃ t ∈ diceFindall (stripWS ("-3d6".toList)), t.head? = some '-') ∧
    roll g0 ("-3d6".toList) =
      .error (.notImplementedError "Sorry, negative dice are not (yet!) supported") := by
  refine ⟨by decide, ?_⟩
  exact (C4_negative_group_rejected g0 ("-3d6".toList)).2 ("-3d6".toList) [] rfl rfl

/-- **C5 (counterexample).**  The expression `3d6++5` contains the
malformed modifier text `++5`, which does not match the `+N`/`-N` form;
yet `roll` surfaces no parse error: the tokenizer recognizes only `+5`
(the stray `+` is silently ignored) and the roll succeeds with
`total_mod = 5`. -/
theorem C5_counterexample :
    (roll g0 ("3d6++5".toList)).map (fun r => (r.total_mod, r.dice.length)) =
      .ok (5, 3) :=
  rfl

/-- **C5 (amended).**  (i) When the whitespace-stripped expression has no
dice-group token and no modifier token, `roll` raises the parse error
carrying the stripped string.  (ii) Every flat-modifier token the
tokenizer produces already matches `[+-]\d+`, so the malformed-modifier
error of `add_modifiers` is unreachable from `roll` (malformed modifier
text is silently ignored instead — see the counterexample).
(iii) `add_modifiers` itself raises `SyntaxError` carrying the offending
token when a token does not begin with `'+'` or `'-'` (and the tokens
before it are well-formed). -/
theorem C5_parse_errors (g : Nat → Nat) (s : List Char)
    (pre : List (List Char)) (t : List Char) (post : List (List Char))
    (c : Char) (rest : List Char) :
    (diceFindall (stripWS s) = [] → modFindall (stripWS s) = [] →
      roll g s = .error (.parseException (stripWS s))) ∧
    (∀ u ∈ modFindall (diceSub (stripWS s)), isModTok u) ∧
    ((∀ u ∈ pre, isModTok u) → t = c :: rest → c ≠ '+' → c ≠ '-' →
      add_modifiers (pre ++ t :: post) = .error (.syntaxError t)) :=
  ⟨fun h1 h2 => roll_no_tokens h1 h2,
   fun u hu => modFindall_tokens_ok hu,
   fun hpre ht hcp hcm => add_modifiers_bad_head hpre ht hcp hcm⟩

/-- **C5 (witness).** -/
theorem C5_amended_witness :
    (diceFindall (stripWS ("foo".toList)) = [] ∧
      modFindall (stripWS ("foo".toList)) = [] ∧
      ("x7".toList = 'x' :: "7".toList) ∧ ('x' ≠ '+') ∧ ('x' ≠ '-')) ∧
    roll g0 ("foo".toList) = .error (.parseException (stripWS ("foo".toList))) ∧
    add_modifiers (["+2".toList] ++ "x7".toList :: []) =
      .error (.syntaxError ("x7".toList)) := by
  refine ⟨by decide, ?_, ?_⟩
  · exact (C5_parse_errors g0 ("foo".toList) [] [] [] 'x' []).1 (by decide) (by decide)
  · exact (C5_parse_errors g0 ("foo".toList) ["+2".toList] ("x7".toList) []
      'x' ("7".toList)).2.2
      (fun u hu => by
        have hu2 : u = "+2".toList := by simpa using hu
        subst hu2
        exact ⟨'+', ['2'], rfl, Or.inl rfl, by decide, by decide⟩)
      rfl (by decide) (by decide)

/-- **C3.**  For digit strings `a` (value `N ≥ 1`), `b` (value `X ≥ 1`)
and `m` (value `M`), `roll` on `a ++ "d" ++ b` succeeds with exactly `N`
dice, every die's result in `[1, X]`, and `N ≤ total ≤ N*X`; and `roll`
on `a ++ "d" ++ b ++ sg ++ m` (`sg ∈ {+, -}`) succeeds with
`N ± M ≤ total ≤ N*X ± M`. -/
theorem C3_roll_bounds (g : Nat → Nat) (a b m : List Char) (sg : Char)
    (hane : a ≠ []) (ha : isDigits a) (hbne : b ≠ []) (hb : isDigits b)
    (hN : 1 ≤ digitsVal a) (hX : 1 ≤ digitsVal b)
    (hsg : sg = '+' ∨ sg = '-') (hmne : m ≠ []) (hdm : isDigits m) :
    (∃ r, roll g (a ++ 'd' :: b) = .ok r ∧
      r.dice.length = digitsVal a ∧
      (∀ d ∈ r.dice, ∃ v, d.result = some v ∧ 1 ≤ v ∧ v ≤ (digitsVal b : Int)) ∧
      ∃ t, r.total = some t ∧ (digitsVal a : Int) ≤ t ∧
        t ≤ (digitsVal a : Int) * (digitsVal b : Int)) ∧
    (∃ r, roll g (a ++ 'd' :: (b ++ sg :: m)) = .ok r ∧
      r.dice.length = digitsVal a ∧
      r.total_mod = (if sg = '-' then -(digitsVal m : Int) else (digitsVal m : Int)) ∧
      ∃ t, r.total = some t ∧
        (digitsVal a : Int) + r.total_mod ≤ t ∧
        t ≤ (digitsVal a : Int) * (digitsVal b : Int) + r.total_mod) := by
  constructor
  · obtain ⟨r, hroll, -, -, hlen, hprops, t, ht, h1, h2⟩ :=
      @roll_ndx_string g a b hane ha hbne hb hX
    refine ⟨r, hroll, hlen, ?_, t, ht, h1, h2⟩
    intro d hd
    obtain ⟨-, -, -, -, v, -, hres, hv1, hv2⟩ := hprops d hd
    exact ⟨v, hres, hv1, hv2⟩
  · obtain ⟨r, hroll, htm, -, hlen, t, ht, h1, h2⟩ :=
      @roll_ndx_mod_string g a b m sg hane ha hbne hb hsg hmne hdm hX
    exact ⟨r, hroll, hlen, htm, t, ht, h1, h2⟩

/-- **C3 (witness)**: `3d6` and `3d6+5` with the stream `g0`. -/
theorem C3_roll_bounds_witness :
    ((['3'] : List Char) ≠ [] ∧ isDigits ['3'] ∧ (['6'] : List Char) ≠ [] ∧
      isDigits ['6'] ∧ 1 ≤ digitsVal ['3'] ∧ 1 ≤ digitsVal ['6'] ∧
      (('+' : Char) = '+' ∨ ('+' : Char) = '-') ∧ (['5'] : List Char) ≠ [] ∧
      isDigits ['5']) ∧
    ((∃ r, roll g0 (['3'] ++ 'd' :: ['6']) = .ok r ∧
      r.dice.length = digitsVal ['3'] ∧
      (∀ d ∈ r.dice, ∃ v, d.result = some v ∧ 1 ≤ v ∧ v ≤ (digitsVal ['6'] : Int)) ∧
      ∃ t, r.total = some t ∧ (digitsVal ['3'] : Int) ≤ t ∧
        t ≤ (digitsVal ['3'] : Int) * (digitsVal ['6'] : Int)) ∧
    (∃ r, roll g0 (['3'] ++ 'd' :: (['6'] ++ '+' :: ['5'])) = .ok r ∧
      r.dice.length = digitsVal ['3'] ∧
      r.total_mod = (if ('+' : Char) = '-' then -(digitsVal ['5'] : Int)
        else (digitsVal ['5'] : Int)) ∧
      ∃ t, r.total = some t ∧
        (digitsVal ['3'] : Int) + r.total_mod ≤ t ∧
        t ≤ (digitsVal ['3'] : Int) * (digitsVal ['6'] : Int) + r.total_mod)) :=
  ⟨by decide,
   C3_roll_bounds g0 ['3'] ['6'] ['5'] '+' (by decide) (by decide) (by decide)
     (by decide) (by decide) (by decide) (Or.inl rfl) (by decide) (by decide)⟩

/-- **C6.**  A `Die` has result `None` before being rolled; with the
default (zero) modifier a rolled die's result is its raw value, a member
of the face set; with no clamping bypass the result always lies in
`[low_face, high_face]`; and whenever `raw + mod` already lies in that
range the result is exactly `raw + mod`. -/
theorem C6_die_result (faces : List Int) (mod : Int) (ao bo : Bool)
    (nm : Option String) (g : Nat → Nat) (k : Nat) :
    (Die.init faces mod ao bo nm none).result = none ∧
    (∀ d', Die.roll g k (Die.init faces 0 ao bo nm none) = .ok d' →
      ∃ v ∈ faces, d'.result = some v ∧ d'.raw = some v) ∧
    (∀ d : Die, d.above_okay = false → d.below_okay = false →
      ∀ v, d.result = some v → d.low_face ≤ v ∧ v ≤ d.high_face) ∧
    (∀ d : Die, ∀ w, d.raw = some w → d.low_face ≤ w + d.mod →
      w + d.mod ≤ d.high_face → d.result = some (w + d.mod)) := by
  refine ⟨result_none_of_unrolled rfl, ?_, ?_, ?_⟩
  · intro d' hroll
    unfold Die.roll pyChoice at hroll
    cases hget : (Die.init faces 0 ao bo nm none).faces.get?
        (g k % (Die.init faces 0 ao bo nm none).faces.length) with
    | none => rw [hget] at hroll; exact absurd hroll (by simp)
    | some v =>
      rw [hget] at hroll
      simp only [] at hroll
      injection hroll with hroll
      subst hroll
      have hv : v ∈ faces := List.get?_mem hget
      exact ⟨v, hv, result_of_mem_nomod rfl rfl hv, rfl⟩
  · intro d hao hbo v hv
    exact ⟨result_ge_low hbo hv, result_le_high hao hv⟩
  · intro d w hraw hlo hhi
    exact result_eq_of_inrange hraw hlo hhi

/-- **C6 (witness)**: a d3-style die, unrolled then rolled with `g0`. -/
theorem C6_die_result_witness :
    (Die.init [1, 2, 3] 0 false false none none).result = none ∧
    ∃ v ∈ ([1, 2, 3] : List Int),
      ∃ d', Die.roll g0 0 (Die.init [1, 2, 3] 0 false false none none) = .ok d' ∧
        d'.result = some v := by
  have h := C6_die_result [1, 2, 3] 0 false false none g0 0
  refine ⟨h.1, ?_⟩
  cases hroll : Die.roll g0 0 (Die.init [1, 2, 3] 0 false false none none) with
  | error e =>
    have heval : Die.roll g0 0 (Die.init [1, 2, 3] 0 false false none none) =
        .ok { faces := [1, 2, 3], mod := 0, above_okay := false,
              below_okay := false, name := none, raw := some 1 } := rfl
    rw [hroll] at heval
    exact absurd heval (by simp)
  | ok d' =>
    obtain ⟨v, hv, hres, -⟩ := h.2.1 d' hroll
    exact ⟨v, hv, d', rfl, hres⟩

/-- **C7.**  The `Die` constructor stores `below_okay = False` no matter
which value the caller supplies, and consequently a rolled die's result is
never below `low_face`. -/
theorem C7_below_okay_forced (faces : List Int) (mod : Int) (ao bo : Bool)
    (nm : Option String) (raw : Option Int) :
    (Die.init faces mod ao bo nm raw).below_okay = false ∧
    (∀ d : Die, d.below_okay = false → ∀ v, d.result = some v → d.low_face ≤ v) :=
  ⟨rfl, fun _ hbo _ hv => result_ge_low hbo hv⟩

/-- **C7 (witness)**: constructed with `below_okay = True` and a raw value
whose modified result would fall below the lowest face, the die still
clamps to `low_face`. -/
theorem C7_below_okay_forced_witness :
    (Die.init [1, 2, 3] (-10) false true none (some 2)).below_okay = false ∧
    (Die.init [1, 2, 3] (-10) false true none (some 2)).result = some 1 ∧
    (Die.init [1, 2, 3] (-10) false true none (some 2)).low_face ≤ 1 := by
  refine ⟨(C7_below_okay_forced [1, 2, 3] (-10) false true none (some 2)).1,
    by decide, ?_⟩
  exact (C7_below_okay_forced [1, 2, 3] (-10) false true none (some 2)).2
    (Die.init [1, 2, 3] (-10) false true none (some 2)) rfl 1 (by decide)

/-- **C8.**  When every kept die is rolled, `Roll.faces` returns the dice
results sorted ascending; the returned list is a permutation of the kept
dice's results; and the underlying sort is stable: for every result value,
the dice carrying that value appear in `sorted_dice` in exactly their
original storage order. -/
theorem C8_faces_sorted_stable (r : Roll)
    (h : ∀ d ∈ r.dice, d.result.isSome) :
    ∃ l, r.faces = some l ∧ l.Sorted (· ≤ ·) ∧ l.Perm (r.dice.map resD) ∧
      (∀ d ∈ r.dice, d.result = some (resD d)) ∧
      ∀ val : Int, r.sorted_dice.filter (fun d => resD d = val) =
        r.dice.filter (fun d => resD d = val) := by
  refine ⟨(r.dice.insertionSort dieLE).map resD, ?_, ?_, ?_, ?_, ?_⟩
  · unfold Roll.faces
    rw [if_pos (List.all_eq_true.mpr (fun d hd => by simpa using h d hd))]
  · exact List.Pairwise.map resD (fun a b hab => hab)
      (List.sorted_insertionSort dieLE r.dice)
  · exact (List.perm_insertionSort dieLE r.dice).map resD
  · intro d hd
    have hs := h d hd
    cases hres : d.result with
    | none => rw [hres] at hs; simp at hs
    | some v =>
      unfold resD
      rw [hres]
      rfl
  · exact fun val => filter_insertionSort_dieLE val r.dice

/-- **C8 (witness)**: three rolled dice with results `[2, 1, 2]`.  The
faces come out sorted as `[1, 2, 2]`. -/
theorem C8_faces_sorted_stable_witness :
    (∀ d ∈ ({ plus_pip := false,
              throw := ⟨[{ faces := [1, 2, 3], mod := 0, above_okay := false,
                           below_okay := false, name := none, raw := some 2 },
                         { faces := [1, 2, 3], mod := 0, above_okay := false,
                           below_okay := false, name := none, raw := some 1 },
                         { faces := [1, 2, 3], mod := 0, above_okay := false,
                           below_okay := false, name := none, raw := some 2 }]⟩,
              total_mod := 0, n_dice := none, x_size := none,
              dropped_dice := [] } : Roll).dice, d.result.isSome) ∧
    ∃ l, ({ plus_pip := false,
            throw := ⟨[{ faces := [1, 2, 3], mod := 0, above_okay := false,
                         below_okay := false, name := none, raw := some 2 },
                       { faces := [1, 2, 3], mod := 0, above_okay := false,
                         below_okay := false, name := none, raw := some 1 },
                       { faces := [1, 2, 3], mod := 0, above_okay := false,
                         below_okay := false, name := none, raw := some 2 }]⟩,
            total_mod := 0, n_dice := none, x_size := none,
            dropped_dice := [] } : Roll).faces = some l ∧
      l.Sorted (· ≤ ·) := by
  refine ⟨by decide, ?_⟩
  obtain ⟨l, hl, hsorted, -, -, -⟩ := C8_faces_sorted_stable
    { plus_pip := false,
      throw := ⟨[{ faces := [1, 2, 3], mod := 0, above_okay := false,
                   below_okay := false, name := none, raw := some 2 },
                 { faces := [1, 2, 3], mod := 0, above_okay := false,
                   below_okay := false, name := none, raw := some 1 },
                 { faces := [1, 2, 3], mod := 0, above_okay := false,
                   below_okay := false, name := none, raw := some 2 }]⟩,
      total_mod := 0, n_dice := none, x_size := none,
      dropped_dice := [] } (by decide)
  exact ⟨l, hl, hsorted⟩

/-- **C9.**  `roll_ndx 3 6` (the spec's `roll_n_of_size(3, 6)`) and
parsing `"3d6"` yield Rolls with the same invariants: three dice, each
with faces `1..6`, zero per-die modifier, no clamping bypass, and total
modifier `0`. -/
theorem C9_roll_ndx_equiv (g : Nat → Nat) :
    (∃ r k', roll_ndx 3 6 0 g 0 = .ok (r, k') ∧ r.total_mod = 0 ∧
      r.dice.length = 3 ∧
      r.dice.map (fun d => (d.faces, d.mod, d.above_okay, d.below_okay)) =
        List.replicate 3 (rangeFaces 6, 0, false, false)) ∧
    (∃ r, roll g ("3d6".toList) = .ok r ∧ r.total_mod = 0 ∧
      r.dice.length = 3 ∧
      r.dice.map (fun d => (d.faces, d.mod, d.above_okay, d.below_okay)) =
        List.replicate 3 (rangeFaces 6, 0, false, false)) := by
  constructor
  · obtain ⟨r, hok, htm, -, hlen, hprops⟩ := @roll_ndx_ok g 0 3 6 (by norm_num) 0
    refine ⟨r, 0 + 3, hok, htm, hlen, ?_⟩
    rw [List.eq_replicate_iff]
    refine ⟨by rw [List.length_map, hlen], ?_⟩
    intro p hp
    obtain ⟨d, hd, rfl⟩ := List.mem_map.mp hp
    obtain ⟨hf, hm, hao, hbo, -⟩ := hprops d hd
    rw [hf, hm, hao, hbo]
  · obtain ⟨r, hok, htm, -, hlen, hprops, -⟩ :=
      @roll_ndx_string g ['3'] ['6'] (by decide) (by decide) (by decide)
        (by decide) (by decide)
    have hd3 : digitsVal ['3'] = 3 := rfl
    have hd6 : digitsVal ['6'] = 6 := rfl
    rw [hd3] at hlen
    refine ⟨r, hok, htm, hlen, ?_⟩
    rw [List.eq_replicate_iff]
    refine ⟨by rw [List.length_map, hlen], ?_⟩
    intro p hp
    obtain ⟨d, hd, rfl⟩ := List.mem_map.mp hp
    obtain ⟨hf, hm, hao, hbo, -⟩ := hprops d hd
    rw [hd6] at hf
    rw [hf, hm, hao, hbo]

/-- **C10.**  Every `Roll` returned by `roll` or by `roll_ndx` has all of
its dice already rolled (`Throw` and `Roll` default `roll_now` to `True`):
each die's `raw` and `result` are present, and `sum`, `total` and `faces`
are all defined immediately after construction. -/
theorem C10_rolled_on_construction (g : Nat → Nat) :
    (∀ s r, roll g s = .ok r →
      (∀ d ∈ r.dice, d.raw.isSome ∧ d.result.isSome) ∧
      (∃ v, r.sum = some v) ∧ (∃ v, r.total = some v) ∧
      (∃ l, r.faces = some l)) ∧
    (∀ n x m k r k', roll_ndx n x m g k = .ok (r, k') →
      (∀ d ∈ r.dice, d.raw.isSome ∧ d.result.isSome) ∧
      (∃ v, r.sum = some v) ∧ (∃ v, r.total = some v) ∧
      (∃ l, r.faces = some l)) := by
  constructor
  · intro s r hr
    have hraw := roll_ok_raw hr
    obtain ⟨hs, ht, hf⟩ := Roll_all_rolled_views hraw
    exact ⟨fun d hd => ⟨hraw d hd, result_isSome_of_raw (hraw d hd)⟩, hs, ht, hf⟩
  · intro n x m k r k' hr
    have hraw := Roll_init_raw
      (show Roll.init (ndx n x) false m true none none g k = .ok (r, k') from hr)
    obtain ⟨hs, ht, hf⟩ := Roll_all_rolled_views hraw
    exact ⟨fun d hd => ⟨hraw d hd, result_isSome_of_raw (hraw d hd)⟩, hs, ht, hf⟩

/-- **C10 (witness)**: the roll of `"3d6"` under `g0` is fully rolled with
defined aggregate views. -/
theorem C10_rolled_on_construction_witness :
    ∃ r, roll g0 ("3d6".toList) = .ok r ∧
      (∀ d ∈ r.dice, d.raw.isSome ∧ d.result.isSome) ∧
      (∃ v, r.sum = some v) ∧ (∃ v, r.total = some v) ∧
      (∃ l, r.faces = some l) :=
  ⟨((roll g0 ("3d6".toList)).toOption).get (by rfl), rfl,
   (C10_rolled_on_construction g0).1 ("3d6".toList) _ rfl⟩

end PyDice
